import Mathlib

set_option maxHeartbeats 1000000
set_option maxRecDepth 4000

/-! Shallow embedding of the mal reader from src/impls/aburd-rust: the value
model (src/lib/mod.rs), the reader-macro environment (src/lib/environment.rs),
and the lexer, token classifier, recursive-descent reader and printer
(src/lib/read.rs).  Machine integers (Rust `usize`) are modelled as `Nat`
with the 64-bit overflow bound made explicit where the source can overflow;
a Rust panic (`unwrap`) is modelled by `Option` with `none` standing for a
process abort; fallible code returns `Except`.  Strings are modelled as
`List Char` (the source is byte-oriented over ASCII-safe text). -/

/-- Error taxonomy `MalReaderError` from read.rs lines 6-13. -/
inductive MalReaderError where
  | LexingFailure (s : List Char)
  | IllegalToken (s : List Char)
  | IllegalString (s : List Char)
  | IllegalSymbol (s : List Char)
  | UnterminatedList
deriving DecidableEq

mutual
/-- Value model `MalDataType` from mod.rs lines 4-14 (`usize` as `Nat`). -/
inductive MalDataType where
  | Nil
  | Boolean (b : Bool)
  | Int (n : Nat)
  | String (s : List Char)
  | Keyword (s : List Char)
  | Vector (ts : List MalToken)
  | List (ts : List MalToken)
  | Symbol (s : List Char)
/-- Token type `MalToken` from mod.rs lines 16-23. -/
inductive MalToken where
  | OpenParen
  | CloseParen
  | OpenBracket
  | CloseBracket
  | Data (d : MalDataType)
end

/-- `get_reader_macros` from environment.rs lines 16-23 (the HashMap is
modelled as an association list with the same insertions). -/
def get_reader_macros : List (String × String) :=
  [("@", "deref"), ("'", "quote")]

/-- `MalEnvironment` from environment.rs lines 3-6. -/
structure MalEnvironment where
  reader_macros : List (String × String)

/-- `MalEnvironment::new` from environment.rs lines 8-14. -/
def MalEnvironment.new : MalEnvironment :=
  { reader_macros := get_reader_macros }

/-! ## Lexer (read.rs lines 176-188)

The scanner applies the regex
`[\s,]*(~@|[\[\]{}()'` + "`" + `~^@]|"(?:\\.|[^\\"])*"?|;.*|[^\s\[\]{}('"` +
"`" + `,;)]*)` repeatedly (leftmost match, alternatives preferred in order,
greedy repetition), keeping the non-empty captures.  The source also `trim`s
the input first; trimming only removes characters that the `[\s,]*` skip
would consume anyway (and whose empty captures are filtered), so it does not
change the lexeme list and is not repeated here. -/

/-- ASCII whitespace as matched by the scanner's `\s` class. -/
def isWsC (c : Char) : Bool :=
  c = ' ' || c = '\t' || c = '\n' || c = '\x0b' || c = '\x0c' || c = '\r'

/-- Characters skipped between lexemes: the regex prefix `[\s,]*`. -/
def lexSkip (c : Char) : Bool := isWsC c || c = ','

/-- The single-character punctuation alternative of the scanner. -/
def punctChars : List Char := "[]\x7b\x7d()'`~^@".data

def isPunctC (c : Char) : Bool := punctChars.contains c

/-- Characters that end a bare (unquoted) run: the complement of the
scanner's final character class. -/
def bareStopChars : List Char := "[]\x7b\x7d('\"`,;)".data

def isBareStop (c : Char) : Bool := isWsC c || bareStopChars.contains c

def isCommentChar (d : Char) : Bool := !(d = '\n')

def isBareChar (d : Char) : Bool := !isBareStop d

/-- Scanner for the tail of a double-quoted lexeme: the regex fragment
`(?:\\.|[^\\"])*"?` after the opening quote (`.` does not match a newline).
Returns the consumed characters and the remaining input. -/
def scanStr : List Char → List Char × List Char
  | [] => ([], [])
  | c :: r =>
    if c = '"' then ([c], r)
    else if c = '\\' then
      match r with
      | [] => ([], [c])
      | c2 :: r2 =>
        if c2 = '\n' then ([], c :: c2 :: r2)
        else
          let p := scanStr r2
          (c :: c2 :: p.1, p.2)
    else
      let p := scanStr r
      (c :: p.1, p.2)

/-- One fuelled pass of the regex engine driving `lexer`.  Each step skips
`[\s,]*`, then takes the first alternative that matches; all lexemes the
source keeps are non-empty, so the source's final empty-capture filter is a
no-op here.  `lexer` instantiates the fuel at a provably sufficient value. -/
def lexLoop : Nat → List Char → List (List Char)
  | 0, _ => []
  | fuel+1, s =>
    match s.dropWhile lexSkip with
    | [] => []
    | c :: r =>
      if c = '~' ∧ r.head? = some '@' then ['~', '@'] :: lexLoop fuel (r.drop 1)
      else if isPunctC c then [c] :: lexLoop fuel r
      else if c = '"' then
        ('"' :: (scanStr r).1) :: lexLoop fuel (scanStr r).2
      else if c = ';' then
        ((c :: r).takeWhile isCommentChar) :: lexLoop fuel ((c :: r).dropWhile isCommentChar)
      else
        ((c :: r).takeWhile isBareChar) :: lexLoop fuel ((c :: r).dropWhile isBareChar)

/-- `lexer` from read.rs lines 176-188.  The `Regex::new` failure branch
(`LexingFailure`) is unreachable: the pattern is a fixed valid regex, so the
scan itself is total. -/
def lexer (s : List Char) : List (List Char) := lexLoop (s.length + 1) s

/-! ## Numeric conversions -/

def digitChar (d : Nat) : Char := Char.ofNat (48 + d)

def natToDecGo : Nat → Nat → List Char
  | 0, _ => []
  | fuel+1, n =>
    if n < 10 then [digitChar n]
    else natToDecGo fuel (n / 10) ++ [digitChar (n % 10)]

/-- Decimal rendering of a natural number, as Rust's `usize::to_string`. -/
def natToDec (n : Nat) : List Char := natToDecGo (n + 1) n

/-- Decimal value of a digit string, as accumulated by Rust's
`str::parse::<usize>`. -/
def listToNat (s : List Char) : Nat :=
  s.foldl (fun a c => 10 * a + (c.toNat - 48)) 0

/-- `usize::MAX` on the 64-bit targets the crate builds for. -/
def USIZE_MAX : Nat := 2 ^ 64 - 1

/-! ## Token classifier (read.rs lines 65-104) -/

/-- `MalToken::from_str`.  The all-digits arm calls
`s.parse::<usize>().unwrap()`, which aborts the process when the value
overflows `usize` (or when `s` is empty, which the guard admits); that abort
is modelled by `none`.  The final arm reads `s.chars().next().unwrap()`,
which likewise aborts on an empty lexeme. -/
def from_str (s : List Char) : Option (Except MalReaderError MalToken) :=
  if s = "(".data then some (.ok .OpenParen)
  else if s = ")".data then some (.ok .CloseParen)
  else if s = "[".data then some (.ok .OpenBracket)
  else if s = "]".data then some (.ok .CloseBracket)
  else if s = "nil".data then some (.ok (.Data .Nil))
  else if s = "true".data then some (.ok (.Data (.Boolean true)))
  else if s = "false".data then some (.ok (.Data (.Boolean false)))
  else if s.head? = some ':' then
    if (s.drop 1).head? = some ':' then some (.error (.IllegalToken s))
    else some (.ok (.Data (.Keyword s)))
  else if s.all (fun c => c.isDigit) then
    if s = [] ∨ USIZE_MAX < listToNat s then none
    else some (.ok (.Data (.Int (listToNat s))))
  else if s.head? = some '"' then
    if s.length < 2 ∨ s.getLast? ≠ some '"' then some (.error (.IllegalString s))
    else some (.ok (.Data (.String s)))
  else
    if s.contains '"' then some (.error (.IllegalSymbol s))
    else
      match s with
      | [] => none
      | c :: _ =>
        if c.isDigit then some (.error (.IllegalSymbol s))
        else some (.ok (.Data (.Symbol s)))

/-- `tokenize` from read.rs lines 190-198: classify each lexeme in order,
stopping at the first error; `none` propagates a classifier abort. -/
def tokenize : List (List Char) → Option (Except MalReaderError (List MalToken))
  | [] => some (.ok [])
  | l :: ls =>
    match from_str l with
    | none => none
    | some (.error e) => some (.error e)
    | some (.ok t) =>
      match tokenize ls with
      | none => none
      | some (.error e) => some (.error e)
      | some (.ok ts) => some (.ok (t :: ts))

/-! ## Printer (read.rs lines 23-63) -/

/-- `Vec::join(" ")` on rendered children. -/
def joinSpace : List (List Char) → List Char
  | [] => []
  | [x] => x
  | x :: xs => x ++ ' ' :: joinSpace xs

mutual
/-- `MalDataType::to_string` (read.rs lines 23-52).  The keyword arm is
`format!(":{}", s[1..])`; on the empty keyword (which no parse produces) the
source would abort on the slice, while this model returns `[':']`. -/
def dataToString : MalDataType → List Char
  | .Nil => "nil".data
  | .Boolean b => if b then "true".data else "false".data
  | .Int n => natToDec n
  | .String s => s
  | .Keyword s => ':' :: s.drop 1
  | .Symbol s => s
  | .Vector ts => '[' :: (joinSpace ((renderToks ts).filter (fun x => !x.isEmpty)) ++ [']'])
  | .List ts => '(' :: (joinSpace ((renderToks ts).filter (fun x => !x.isEmpty)) ++ [')'])
/-- `MalToken::to_string` (read.rs lines 55-63). -/
def tokenToString : MalToken → List Char
  | .OpenParen => ['(']
  | .CloseParen => [')']
  | .OpenBracket => ['[']
  | .CloseBracket => [']']
  | .Data d => dataToString d
/-- The `iter().map(|v| v.to_string())` step of the container arms. -/
def renderToks : List MalToken → List (List Char)
  | [] => []
  | t :: ts => tokenToString t :: renderToks ts
end

/-! ## Reader (read.rs lines 107-174)

`Reader` is a token vector plus a cursor; the methods mutate `self.pos`.
They are modelled as functions from the (immutable) token list and cursor
position, returning the produced token together with the final cursor.  The
mutually recursive trio gets an explicit fuel parameter (the source loop
terminates because the cursor is bounded by the token count; the fuel is
instantiated at a bound proven sufficient below). -/

/-- `Reader::peek` (read.rs lines 120-125). -/
def peek (ts : List MalToken) (pos : Nat) : Except MalReaderError MalToken :=
  match ts.get? pos with
  | some t => .ok t
  | none => .error .UnterminatedList

mutual
/-- Fuelled `Reader::read_form` (read.rs lines 162-173); the atom arm
returns the peeked token without advancing the cursor. -/
def readFormF : Nat → List MalToken → Nat → Option (Except MalReaderError (MalToken × Nat))
  | 0, _, _ => none
  | fuel+1, ts, pos =>
    match peek ts pos with
    | .error e => some (.error e)
    | .ok t =>
      match t with
      | .OpenParen => readListF fuel ts (pos + 1) []
      | .OpenBracket => readVectorF fuel ts (pos + 1) []
      | _ => some (.ok (t, pos))
/-- Fuelled `Reader::read_list` (read.rs lines 127-140): loop on
`read_form`; a `CloseParen` result ends the list (cursor left on the
closer), any other token is pushed and the cursor advanced past it; a
failing `read_form` makes the loop fail with `UnterminatedList`. -/
def readListF : Nat → List MalToken → Nat → List MalToken → Option (Except MalReaderError (MalToken × Nat))
  | 0, _, _, _ => none
  | fuel+1, ts, pos, acc =>
    match readFormF fuel ts pos with
    | none => none
    | some (.error _) => some (.error .UnterminatedList)
    | some (.ok (t, p)) =>
      match t with
      | .CloseParen => some (.ok (.Data (.List acc), p))
      | _ => readListF fuel ts (p + 1) (acc ++ [t])
/-- Fuelled `Reader::read_vector` (read.rs lines 142-156). -/
def readVectorF : Nat → List MalToken → Nat → List MalToken → Option (Except MalReaderError (MalToken × Nat))
  | 0, _, _, _ => none
  | fuel+1, ts, pos, acc =>
    match readFormF fuel ts pos with
    | none => none
    | some (.error _) => some (.error .UnterminatedList)
    | some (.ok (t, p)) =>
      match t with
      | .CloseBracket => some (.ok (.Data (.Vector acc), p))
      | _ => readVectorF fuel ts (p + 1) (acc ++ [t])
end

/-- `Reader::read_form` with the fuel instantiated at a bound proven
sufficient below; the `none` default is unreachable at that bound. -/
def read_form (ts : List MalToken) (pos : Nat) : Except MalReaderError (MalToken × Nat) :=
  match readFormF (2 * (ts.length + 1 - pos) + 1) ts pos with
  | some r => r
  | none => .error .UnterminatedList

/-- `Reader::read_list` with sufficient fuel. -/
def read_list (ts : List MalToken) (pos : Nat) (acc : List MalToken) : Except MalReaderError (MalToken × Nat) :=
  match readListF (2 * (ts.length + 1 - pos) + 2) ts pos acc with
  | some r => r
  | none => .error .UnterminatedList

/-- `Reader::read_vector` with sufficient fuel. -/
def read_vector (ts : List MalToken) (pos : Nat) (acc : List MalToken) : Except MalReaderError (MalToken × Nat) :=
  match readVectorF (2 * (ts.length + 1 - pos) + 2) ts pos acc with
  | some r => r
  | none => .error .UnterminatedList

/-- The post-classification stage of `read_str`: one `read_form` from
position 0, then the requirement that the result be a `Data` token (a bare
structural token at top level surfaces as `UnterminatedList`). -/
def parseTokens (tokens : List MalToken) : Except MalReaderError MalDataType :=
  match read_form tokens 0 with
  | .error e => .error e
  | .ok (.Data d, _) => .ok d
  | .ok _ => .error .UnterminatedList

/-- `read_str` from read.rs lines 200-214: lex, classify, parse one form.
The environment parameter is never consulted, exactly as in the source
(`mal_env` is unused in the function body).  `none` models a classifier
abort taking down the process. -/
def read_str (s : String) (mal_env : MalEnvironment) : Option (Except MalReaderError MalDataType) :=
  match tokenize (lexer s.data) with
  | none => none
  | some (.error e) => some (.error e)
  | some (.ok tokens) => some (parseTokens tokens)

/-! ## Well-formed values and canonical lexeme / token sequences

`wfData` characterises the values whose rendering re-lexes, re-classifies
and re-parses to the same value.  It is used for the round-trip analysis:
symbols and keywords must be shaped like a single lexeme of the scanner,
strings must re-scan to their own extent under any continuation, integers
must fit `usize`, and containers may hold only `Data` elements or the
opposite container's closer (exactly the structural tokens the reader can
deposit inside them). -/

/-- Predicate on the part of a string lexeme after the opening quote:
scanning consumes exactly this text and stops at its final quote, for any
continuation of the input. -/
def strBody : List Char → Bool
  | [] => false
  | c :: r =>
    if c = '"' then r.isEmpty
    else if c = '\\' then
      match r with
      | [] => false
      | c2 :: r2 => if c2 = '\n' then false else strBody r2
    else strBody r

/-- A whole string lexeme: opening quote plus a robust body. -/
def strShape (s : List Char) : Bool :=
  match s with
  | [] => false
  | c :: body => if c = '"' then strBody body else false

/-- The punctuation characters whose single-character lexemes classify as
symbols (the four bracket characters classify as structural tokens). -/
def punct7 : List Char := "\x7b\x7d'`~^@".data

/-- An admissible head character for a bare-run lexeme: the scanner's
earlier alternatives must not fire on it, the classifier must not route it
to the keyword arm, and a digit head is rejected by the symbol arm. -/
def bareHeadOK (c : Char) : Bool :=
  !c.isDigit && !(c = ':') && !(c = '~') && !(c = '^') && !(c = '@')

/-- A lexeme produced by the scanner's final (bare-run) alternative that
classifies as a symbol. -/
def bareShape (s : List Char) : Bool :=
  match s with
  | [] => false
  | c :: _ => bareHeadOK c && s.all isBareChar

/-- Symbol texts whose rendering re-lexes as exactly one lexeme and
re-classifies as the same symbol. -/
def symShape (s : List Char) : Bool :=
  (s = ['~', '@']) ||
  (match s with
   | [c] => punct7.contains c
   | _ => false) ||
  (bareShape s && !(s = "nil".data) && !(s = "true".data) && !(s = "false".data))

/-- Keyword texts (colon head, no double colon, bare-run body). -/
def keywordShape (s : List Char) : Bool :=
  match s with
  | [] => false
  | c :: rest =>
    if c = ':' then
      (if rest.head? = some ':' then false else true) && (c :: rest).all isBareChar
    else false

mutual
/-- Well-formed values: rendering then re-reading is the identity on
exactly this class (see the round-trip lemmas below). -/
def wfData : MalDataType → Bool
  | .Nil => true
  | .Boolean _ => true
  | .Int n => decide (n ≤ USIZE_MAX)
  | .String s => strShape s
  | .Keyword s => keywordShape s
  | .Symbol s => symShape s
  | .Vector ts => wfVecElems ts
  | .List ts => wfListElems ts
/-- Admissible elements of a `List` value: `Data` tokens and the stray
`CloseBracket` tokens the reader pushes into lists. -/
def wfListElems : List MalToken → Bool
  | [] => true
  | .CloseBracket :: ts => wfListElems ts
  | .Data d :: ts => wfData d && wfListElems ts
  | _ => false
/-- Admissible elements of a `Vector` value. -/
def wfVecElems : List MalToken → Bool
  | [] => true
  | .CloseParen :: ts => wfVecElems ts
  | .Data d :: ts => wfData d && wfVecElems ts
  | _ => false
end

mutual
/-- The lexemes that scanning a rendered value produces. -/
def lexemesOfD : MalDataType → List (List Char)
  | .Nil => ["nil".data]
  | .Boolean b => [if b then "true".data else "false".data]
  | .Int n => [natToDec n]
  | .String s => [s]
  | .Keyword s => [':' :: s.drop 1]
  | .Symbol s => [s]
  | .Vector ts => "[".data :: (lexemesOfToks ts ++ ["]".data])
  | .List ts => "(".data :: (lexemesOfToks ts ++ [")".data])
def lexemesOfT : MalToken → List (List Char)
  | .OpenParen => ["(".data]
  | .CloseParen => [")".data]
  | .OpenBracket => ["[".data]
  | .CloseBracket => ["]".data]
  | .Data d => lexemesOfD d
def lexemesOfToks : List MalToken → List (List Char)
  | [] => []
  | t :: ts => lexemesOfT t ++ lexemesOfToks ts
end

mutual
/-- The token sequence that classifying `lexemesOfD` produces. -/
def tokensOfD : MalDataType → List MalToken
  | .Nil => [.Data .Nil]
  | .Boolean b => [.Data (.Boolean b)]
  | .Int n => [.Data (.Int n)]
  | .String s => [.Data (.String s)]
  | .Keyword s => [.Data (.Keyword s)]
  | .Symbol s => [.Data (.Symbol s)]
  | .Vector ts => .OpenBracket :: (tokensOfToks ts ++ [.CloseBracket])
  | .List ts => .OpenParen :: (tokensOfToks ts ++ [.CloseParen])
def tokensOfT : MalToken → List MalToken
  | .Data d => tokensOfD d
  | t => [t]
def tokensOfToks : List MalToken → List MalToken
  | [] => []
  | t :: ts => tokensOfT t ++ tokensOfToks ts
end

/-- The spec's `render` operation: `MalDataType::to_string` packaged as a
`String` for feeding back to `read_str`. -/
def render (v : MalDataType) : String := String.mk (dataToString v)

/-- Continuations after a rendered value inside a larger rendering: either
the end of the input or a separating space / closing bracket.  Every
position following a child in `dataToString` satisfies this. -/
def sepOK (s : List Char) : Prop :=
  match s.head? with
  | none => True
  | some c => c = ' ' ∨ c = ')' ∨ c = ']'

/-! ## Reader infrastructure lemmas: the fuel is an artifact of the
embedding; the lemmas below show it is irrelevant beyond a linear bound,
so the wrapped `read_form`/`read_list`/`read_vector` satisfy the source's
recursion equations exactly. -/

theorem peek_ok_lt {ts : List MalToken} {pos : Nat} {t : MalToken}
    (h : peek ts pos = .ok t) : pos < ts.length := by
  unfold peek at h
  cases hg : ts.get? pos with
  | none => rw [hg] at h; exact absurd h (by simp)
  | some u =>
    have := List.get?_eq_some.mp hg
    exact this.1

theorem readF_mono_succ : ∀ fuel : Nat,
    (∀ ts pos r, readFormF fuel ts pos = some r → readFormF (fuel+1) ts pos = some r) ∧
    (∀ ts pos acc r, readListF fuel ts pos acc = some r → readListF (fuel+1) ts pos acc = some r) ∧
    (∀ ts pos acc r, readVectorF fuel ts pos acc = some r → readVectorF (fuel+1) ts pos acc = some r) := by
  intro fuel
  induction fuel with
  | zero =>
    exact ⟨fun ts pos r h => Option.noConfusion h,
           fun ts pos acc r h => Option.noConfusion h,
           fun ts pos acc r h => Option.noConfusion h⟩
  | succ f ih =>
    obtain ⟨ihF, ihL, ihV⟩ := ih
    refine ⟨?_, ?_, ?_⟩
    · intro ts pos r h
      simp only [readFormF] at h ⊢
      cases hp : peek ts pos with
      | error e => rw [hp] at h; exact h
      | ok t =>
        rw [hp] at h
        cases t with
        | OpenParen => exact ihL _ _ _ _ h
        | OpenBracket => exact ihV _ _ _ _ h
        | CloseParen => exact h
        | CloseBracket => exact h
        | Data d => exact h
    · intro ts pos acc r h
      simp only [readListF] at h ⊢
      cases hf : readFormF f ts pos with
      | none => rw [hf] at h; exact Option.noConfusion h
      | some res =>
        rw [hf] at h
        rw [ihF _ _ _ hf]
        cases res with
        | error e => exact h
        | ok tp =>
          obtain ⟨t, p⟩ := tp
          cases t with
          | CloseParen => exact h
          | OpenParen => exact ihL _ _ _ _ h
          | OpenBracket => exact ihL _ _ _ _ h
          | CloseBracket => exact ihL _ _ _ _ h
          | Data d => exact ihL _ _ _ _ h
    · intro ts pos acc r h
      simp only [readVectorF] at h ⊢
      cases hf : readFormF f ts pos with
      | none => rw [hf] at h; exact Option.noConfusion h
      | some res =>
        rw [hf] at h
        rw [ihF _ _ _ hf]
        cases res with
        | error e => exact h
        | ok tp =>
          obtain ⟨t, p⟩ := tp
          cases t with
          | CloseBracket => exact h
          | OpenParen => exact ihV _ _ _ _ h
          | OpenBracket => exact ihV _ _ _ _ h
          | CloseParen => exact ihV _ _ _ _ h
          | Data d => exact ihV _ _ _ _ h

theorem readFormF_mono {f g : Nat} (hfg : f ≤ g) {ts : List MalToken} {pos : Nat}
    {r : Except MalReaderError (MalToken × Nat)}
    (h : readFormF f ts pos = some r) : readFormF g ts pos = some r := by
  induction g with
  | zero => cases Nat.le_zero.mp hfg; exact h
  | succ g ihg =>
    rcases Nat.lt_or_ge f (g+1) with hlt | hge
    · exact (readF_mono_succ g).1 _ _ _ (ihg (Nat.lt_succ_iff.mp hlt))
    · cases Nat.le_antisymm hfg hge; exact h

theorem readListF_mono {f g : Nat} (hfg : f ≤ g) {ts : List MalToken} {pos : Nat}
    {acc : List MalToken} {r : Except MalReaderError (MalToken × Nat)}
    (h : readListF f ts pos acc = some r) : readListF g ts pos acc = some r := by
  induction g with
  | zero => cases Nat.le_zero.mp hfg; exact h
  | succ g ihg =>
    rcases Nat.lt_or_ge f (g+1) with hlt | hge
    · exact (readF_mono_succ g).2.1 _ _ _ _ (ihg (Nat.lt_succ_iff.mp hlt))
    · cases Nat.le_antisymm hfg hge; exact h

theorem readVectorF_mono {f g : Nat} (hfg : f ≤ g) {ts : List MalToken} {pos : Nat}
    {acc : List MalToken} {r : Except MalReaderError (MalToken × Nat)}
    (h : readVectorF f ts pos acc = some r) : readVectorF g ts pos acc = some r := by
  induction g with
  | zero => cases Nat.le_zero.mp hfg; exact h
  | succ g ihg =>
    rcases Nat.lt_or_ge f (g+1) with hlt | hge
    · exact (readF_mono_succ g).2.2 _ _ _ _ (ihg (Nat.lt_succ_iff.mp hlt))
    · cases Nat.le_antisymm hfg hge; exact h

theorem readF_pos_le : ∀ fuel : Nat,
    (∀ ts pos t p, readFormF fuel ts pos = some (.ok (t, p)) → pos ≤ p ∧ p < ts.length) ∧
    (∀ ts pos acc t p, readListF fuel ts pos acc = some (.ok (t, p)) → pos ≤ p ∧ p < ts.length) ∧
    (∀ ts pos acc t p, readVectorF fuel ts pos acc = some (.ok (t, p)) → pos ≤ p ∧ p < ts.length) := by
  intro fuel
  induction fuel with
  | zero =>
    exact ⟨fun ts pos t p h => Option.noConfusion h,
           fun ts pos acc t p h => Option.noConfusion h,
           fun ts pos acc t p h => Option.noConfusion h⟩
  | succ f ih =>
    obtain ⟨ihF, ihL, ihV⟩ := ih
    refine ⟨?_, ?_, ?_⟩
    · intro ts pos t p h
      simp only [readFormF] at h
      cases hp : peek ts pos with
      | error e => rw [hp] at h; simp at h
      | ok u =>
        rw [hp] at h
        have hlt := peek_ok_lt hp
        cases u with
        | OpenParen =>
          have := ihL _ _ _ _ _ h
          exact ⟨Nat.le_of_succ_le this.1, this.2⟩
        | OpenBracket =>
          have := ihV _ _ _ _ _ h
          exact ⟨Nat.le_of_succ_le this.1, this.2⟩
        | CloseParen => simp at h; obtain ⟨-, hpp⟩ := h; omega
        | CloseBracket => simp at h; obtain ⟨-, hpp⟩ := h; omega
        | Data d => simp at h; obtain ⟨-, hpp⟩ := h; omega
    · intro ts pos acc t p h
      simp only [readListF] at h
      cases hf : readFormF f ts pos with
      | none => rw [hf] at h; exact Option.noConfusion h
      | some res =>
        rw [hf] at h
        cases res with
        | error e => simp at h
        | ok tp =>
          obtain ⟨t0, p0⟩ := tp
          have h0 := ihF _ _ _ _ hf
          cases t0 with
          | CloseParen => simp at h; obtain ⟨-, hpp⟩ := h; omega
          | OpenParen => have := ihL _ _ _ _ _ h; omega
          | OpenBracket => have := ihL _ _ _ _ _ h; omega
          | CloseBracket => have := ihL _ _ _ _ _ h; omega
          | Data d => have := ihL _ _ _ _ _ h; omega
    · intro ts pos acc t p h
      simp only [readVectorF] at h
      cases hf : readFormF f ts pos with
      | none => rw [hf] at h; exact Option.noConfusion h
      | some res =>
        rw [hf] at h
        cases res with
        | error e => simp at h
        | ok tp =>
          obtain ⟨t0, p0⟩ := tp
          have h0 := ihF _ _ _ _ hf
          cases t0 with
          | CloseBracket => simp at h; obtain ⟨-, hpp⟩ := h; omega
          | OpenParen => have := ihV _ _ _ _ _ h; omega
          | OpenBracket => have := ihV _ _ _ _ _ h; omega
          | CloseParen => have := ihV _ _ _ _ _ h; omega
          | Data d => have := ihV _ _ _ _ _ h; omega

theorem readF_sufficient : ∀ fuel : Nat,
    (∀ ts pos, 2 * (ts.length + 1 - pos) + 1 ≤ fuel → ∃ r, readFormF fuel ts pos = some r) ∧
    (∀ ts pos acc, 2 * (ts.length + 1 - pos) + 2 ≤ fuel → ∃ r, readListF fuel ts pos acc = some r) ∧
    (∀ ts pos acc, 2 * (ts.length + 1 - pos) + 2 ≤ fuel → ∃ r, readVectorF fuel ts pos acc = some r) := by
  intro fuel
  induction fuel with
  | zero =>
    refine ⟨fun ts pos h => absurd h (by omega), fun ts pos acc h => absurd h (by omega),
      fun ts pos acc h => absurd h (by omega)⟩
  | succ f ih =>
    obtain ⟨ihF, ihL, ihV⟩ := ih
    refine ⟨?_, ?_, ?_⟩
    · intro ts pos hb
      simp only [readFormF]
      cases hp : peek ts pos with
      | error e => exact ⟨.error e, rfl⟩
      | ok t =>
        have hlt := peek_ok_lt hp
        cases t with
        | OpenParen => exact ihL ts (pos+1) [] (by omega)
        | OpenBracket => exact ihV ts (pos+1) [] (by omega)
        | CloseParen => exact ⟨_, rfl⟩
        | CloseBracket => exact ⟨_, rfl⟩
        | Data d => exact ⟨_, rfl⟩
    · intro ts pos acc hb
      simp only [readListF]
      obtain ⟨r0, hr0⟩ := ihF ts pos (by omega)
      rw [hr0]
      cases r0 with
      | error e => exact ⟨_, rfl⟩
      | ok tp =>
        obtain ⟨t0, p0⟩ := tp
        obtain ⟨hle, hlt⟩ := (readF_pos_le f).1 ts pos t0 p0 hr0
        cases t0 with
        | CloseParen => exact ⟨_, rfl⟩
        | OpenParen => exact ihL ts (p0+1) (acc ++ [.OpenParen]) (by omega)
        | OpenBracket => exact ihL ts (p0+1) (acc ++ [.OpenBracket]) (by omega)
        | CloseBracket => exact ihL ts (p0+1) (acc ++ [.CloseBracket]) (by omega)
        | Data d => exact ihL ts (p0+1) (acc ++ [.Data d]) (by omega)
    · intro ts pos acc hb
      simp only [readVectorF]
      obtain ⟨r0, hr0⟩ := ihF ts pos (by omega)
      rw [hr0]
      cases r0 with
      | error e => exact ⟨_, rfl⟩
      | ok tp =>
        obtain ⟨t0, p0⟩ := tp
        obtain ⟨hle, hlt⟩ := (readF_pos_le f).1 ts pos t0 p0 hr0
        cases t0 with
        | CloseBracket => exact ⟨_, rfl⟩
        | OpenParen => exact ihV ts (p0+1) (acc ++ [.OpenParen]) (by omega)
        | OpenBracket => exact ihV ts (p0+1) (acc ++ [.OpenBracket]) (by omega)
        | CloseParen => exact ihV ts (p0+1) (acc ++ [.CloseParen]) (by omega)
        | Data d => exact ihV ts (p0+1) (acc ++ [.Data d]) (by omega)

theorem readFormF_congr {f g : Nat} {ts : List MalToken} {pos : Nat}
    (hf : 2 * (ts.length + 1 - pos) + 1 ≤ f) (hg : 2 * (ts.length + 1 - pos) + 1 ≤ g) :
    readFormF f ts pos = readFormF g ts pos := by
  obtain ⟨r, hr⟩ := (readF_sufficient (2 * (ts.length + 1 - pos) + 1)).1 ts pos (Nat.le_refl _)
  rw [readFormF_mono hf hr, readFormF_mono hg hr]

theorem readListF_congr {f g : Nat} {ts : List MalToken} {pos : Nat} {acc : List MalToken}
    (hf : 2 * (ts.length + 1 - pos) + 2 ≤ f) (hg : 2 * (ts.length + 1 - pos) + 2 ≤ g) :
    readListF f ts pos acc = readListF g ts pos acc := by
  obtain ⟨r, hr⟩ := (readF_sufficient (2 * (ts.length + 1 - pos) + 2)).2.1 ts pos acc (Nat.le_refl _)
  rw [readListF_mono hf hr, readListF_mono hg hr]

theorem readVectorF_congr {f g : Nat} {ts : List MalToken} {pos : Nat} {acc : List MalToken}
    (hf : 2 * (ts.length + 1 - pos) + 2 ≤ f) (hg : 2 * (ts.length + 1 - pos) + 2 ≤ g) :
    readVectorF f ts pos acc = readVectorF g ts pos acc := by
  obtain ⟨r, hr⟩ := (readF_sufficient (2 * (ts.length + 1 - pos) + 2)).2.2 ts pos acc (Nat.le_refl _)
  rw [readVectorF_mono hf hr, readVectorF_mono hg hr]

theorem read_form_eqF {ts : List MalToken} {pos : Nat} {f : Nat}
    (hf : 2 * (ts.length + 1 - pos) + 1 ≤ f) :
    readFormF f ts pos = some (read_form ts pos) := by
  obtain ⟨r, hr⟩ := (readF_sufficient (2 * (ts.length + 1 - pos) + 1)).1 ts pos (Nat.le_refl _)
  unfold read_form
  rw [readFormF_mono hf hr, readFormF_mono (Nat.le_refl _) hr]

theorem read_list_eqF {ts : List MalToken} {pos : Nat} {acc : List MalToken} {f : Nat}
    (hf : 2 * (ts.length + 1 - pos) + 2 ≤ f) :
    readListF f ts pos acc = some (read_list ts pos acc) := by
  obtain ⟨r, hr⟩ := (readF_sufficient (2 * (ts.length + 1 - pos) + 2)).2.1 ts pos acc (Nat.le_refl _)
  unfold read_list
  rw [readListF_mono hf hr, readListF_mono (Nat.le_refl _) hr]

theorem read_vector_eqF {ts : List MalToken} {pos : Nat} {acc : List MalToken} {f : Nat}
    (hf : 2 * (ts.length + 1 - pos) + 2 ≤ f) :
    readVectorF f ts pos acc = some (read_vector ts pos acc) := by
  obtain ⟨r, hr⟩ := (readF_sufficient (2 * (ts.length + 1 - pos) + 2)).2.2 ts pos acc (Nat.le_refl _)
  unfold read_vector
  rw [readVectorF_mono hf hr, readVectorF_mono (Nat.le_refl _) hr]

/-- The source recursion equation of `Reader::read_form`, recovered for the
fuel-free wrapper. -/
theorem read_form_eq (ts : List MalToken) (pos : Nat) :
    read_form ts pos =
      match peek ts pos with
      | .error e => .error e
      | .ok t =>
        match t with
        | .OpenParen => read_list ts (pos + 1) []
        | .OpenBracket => read_vector ts (pos + 1) []
        | _ => .ok (t, pos) := by
  have h := @read_form_eqF ts pos (2 * (ts.length + 1 - pos) + 1) (Nat.le_refl _)
  have hsucc : 2 * (ts.length + 1 - pos) + 1 = (2 * (ts.length + 1 - pos)) + 1 := rfl
  rw [hsucc] at h
  simp only [readFormF] at h
  cases hp : peek ts pos with
  | error e => rw [hp] at h; exact (Option.some.injEq _ _ ▸ h).symm
  | ok t =>
    rw [hp] at h
    have hlt := peek_ok_lt hp
    cases t with
    | OpenParen =>
      rw [read_list_eqF (by omega)] at h
      exact (Option.some.injEq _ _ ▸ h).symm
    | OpenBracket =>
      rw [read_vector_eqF (by omega)] at h
      exact (Option.some.injEq _ _ ▸ h).symm
    | CloseParen => exact (Option.some.injEq _ _ ▸ h).symm
    | CloseBracket => exact (Option.some.injEq _ _ ▸ h).symm
    | Data d => exact (Option.some.injEq _ _ ▸ h).symm

/-- The source recursion equation of `Reader::read_list`: the loop body as
a single unfolding. -/
theorem read_list_eq (ts : List MalToken) (pos : Nat) (acc : List MalToken) :
    read_list ts pos acc =
      match read_form ts pos with
      | .error _ => .error .UnterminatedList
      | .ok (t, p) =>
        match t with
        | .CloseParen => .ok (.Data (.List acc), p)
        | _ => read_list ts (p + 1) (acc ++ [t]) := by
  have hstep : readListF (2 * (ts.length + 1 - pos) + 1 + 1) ts pos acc =
      match readFormF (2 * (ts.length + 1 - pos) + 1) ts pos with
      | none => none
      | some (.error _) => some (.error .UnterminatedList)
      | some (.ok (t, p)) =>
        match t with
        | .CloseParen => some (.ok (.Data (.List acc), p))
        | _ => readListF (2 * (ts.length + 1 - pos) + 1) ts (p + 1) (acc ++ [t]) := rfl
  rw [read_list_eqF (f := 2 * (ts.length + 1 - pos) + 1 + 1) (by omega)] at hstep
  rw [read_form_eqF (Nat.le_refl _)] at hstep
  cases hr : read_form ts pos with
  | error e => rw [hr] at hstep; injection hstep with h3
  | ok tp =>
    obtain ⟨t, p⟩ := tp
    rw [hr] at hstep
    have hok : readFormF (2 * (ts.length + 1 - pos) + 1) ts pos = some (.ok (t, p)) := by
      rw [read_form_eqF (Nat.le_refl _), hr]
    obtain ⟨hle, hlt⟩ := (readF_pos_le _).1 ts pos t p hok
    cases t with
    | CloseParen => injection hstep with h3
    | OpenParen =>
      have h2 : some (read_list ts pos acc) =
          readListF (2 * (ts.length + 1 - pos) + 1) ts (p + 1) (acc ++ [MalToken.OpenParen]) := hstep
      rw [read_list_eqF (by omega)] at h2
      injection h2 with h3
    | OpenBracket =>
      have h2 : some (read_list ts pos acc) =
          readListF (2 * (ts.length + 1 - pos) + 1) ts (p + 1) (acc ++ [MalToken.OpenBracket]) := hstep
      rw [read_list_eqF (by omega)] at h2
      injection h2 with h3
    | CloseBracket =>
      have h2 : some (read_list ts pos acc) =
          readListF (2 * (ts.length + 1 - pos) + 1) ts (p + 1) (acc ++ [MalToken.CloseBracket]) := hstep
      rw [read_list_eqF (by omega)] at h2
      injection h2 with h3
    | Data d =>
      have h2 : some (read_list ts pos acc) =
          readListF (2 * (ts.length + 1 - pos) + 1) ts (p + 1) (acc ++ [MalToken.Data d]) := hstep
      rw [read_list_eqF (by omega)] at h2
      injection h2 with h3

/-- The source recursion equation of `Reader::read_vector`. -/
theorem read_vector_eq (ts : List MalToken) (pos : Nat) (acc : List MalToken) :
    read_vector ts pos acc =
      match read_form ts pos with
      | .error _ => .error .UnterminatedList
      | .ok (t, p) =>
        match t with
        | .CloseBracket => .ok (.Data (.Vector acc), p)
        | _ => read_vector ts (p + 1) (acc ++ [t]) := by
  have hstep : readVectorF (2 * (ts.length + 1 - pos) + 1 + 1) ts pos acc =
      match readFormF (2 * (ts.length + 1 - pos) + 1) ts pos with
      | none => none
      | some (.error _) => some (.error .UnterminatedList)
      | some (.ok (t, p)) =>
        match t with
        | .CloseBracket => some (.ok (.Data (.Vector acc), p))
        | _ => readVectorF (2 * (ts.length + 1 - pos) + 1) ts (p + 1) (acc ++ [t]) := rfl
  rw [read_vector_eqF (f := 2 * (ts.length + 1 - pos) + 1 + 1) (by omega)] at hstep
  rw [read_form_eqF (Nat.le_refl _)] at hstep
  cases hr : read_form ts pos with
  | error e => rw [hr] at hstep; injection hstep with h3
  | ok tp =>
    obtain ⟨t, p⟩ := tp
    rw [hr] at hstep
    have hok : readFormF (2 * (ts.length + 1 - pos) + 1) ts pos = some (.ok (t, p)) := by
      rw [read_form_eqF (Nat.le_refl _), hr]
    obtain ⟨hle, hlt⟩ := (readF_pos_le _).1 ts pos t p hok
    cases t with
    | CloseBracket => injection hstep with h3
    | OpenParen =>
      have h2 : some (read_vector ts pos acc) =
          readVectorF (2 * (ts.length + 1 - pos) + 1) ts (p + 1) (acc ++ [MalToken.OpenParen]) := hstep
      rw [read_vector_eqF (by omega)] at h2
      injection h2 with h3
    | OpenBracket =>
      have h2 : some (read_vector ts pos acc) =
          readVectorF (2 * (ts.length + 1 - pos) + 1) ts (p + 1) (acc ++ [MalToken.OpenBracket]) := hstep
      rw [read_vector_eqF (by omega)] at h2
      injection h2 with h3
    | CloseParen =>
      have h2 : some (read_vector ts pos acc) =
          readVectorF (2 * (ts.length + 1 - pos) + 1) ts (p + 1) (acc ++ [MalToken.CloseParen]) := hstep
      rw [read_vector_eqF (by omega)] at h2
      injection h2 with h3
    | Data d =>
      have h2 : some (read_vector ts pos acc) =
          readVectorF (2 * (ts.length + 1 - pos) + 1) ts (p + 1) (acc ++ [MalToken.Data d]) := hstep
      rw [read_vector_eqF (by omega)] at h2
      injection h2 with h3

theorem peek_append {ts ex : List MalToken} {pos : Nat} {t : MalToken}
    (h : peek ts pos = .ok t) : peek (ts ++ ex) pos = .ok t := by
  unfold peek at h ⊢
  cases hg : ts.get? pos with
  | none => rw [hg] at h; exact absurd h (by simp)
  | some u =>
    rw [hg] at h
    have hlt : pos < ts.length := (List.get?_eq_some.mp hg).1
    rw [List.get?_append hlt, hg]
    exact h

theorem readF_append : ∀ fuel : Nat,
    (∀ ts ex pos t p, readFormF fuel ts pos = some (.ok (t, p)) →
      readFormF fuel (ts ++ ex) pos = some (.ok (t, p))) ∧
    (∀ ts ex pos acc t p, readListF fuel ts pos acc = some (.ok (t, p)) →
      readListF fuel (ts ++ ex) pos acc = some (.ok (t, p))) ∧
    (∀ ts ex pos acc t p, readVectorF fuel ts pos acc = some (.ok (t, p)) →
      readVectorF fuel (ts ++ ex) pos acc = some (.ok (t, p))) := by
  intro fuel
  induction fuel with
  | zero =>
    exact ⟨fun ts ex pos t p h => Option.noConfusion h,
           fun ts ex pos acc t p h => Option.noConfusion h,
           fun ts ex pos acc t p h => Option.noConfusion h⟩
  | succ f ih =>
    obtain ⟨ihF, ihL, ihV⟩ := ih
    refine ⟨?_, ?_, ?_⟩
    · intro ts ex pos t p h
      simp only [readFormF] at h ⊢
      cases hp : peek ts pos with
      | error e => rw [hp] at h; simp at h
      | ok u =>
        rw [hp] at h
        rw [peek_append hp]
        cases u with
        | OpenParen => exact ihL _ _ _ _ _ _ h
        | OpenBracket => exact ihV _ _ _ _ _ _ h
        | CloseParen => exact h
        | CloseBracket => exact h
        | Data d => exact h
    · intro ts ex pos acc t p h
      simp only [readListF] at h ⊢
      cases hf : readFormF f ts pos with
      | none => rw [hf] at h; exact Option.noConfusion h
      | some res =>
        rw [hf] at h
        cases res with
        | error e => simp at h
        | ok tp =>
          obtain ⟨t0, p0⟩ := tp
          rw [ihF _ ex _ _ _ hf]
          cases t0 with
          | CloseParen => exact h
          | OpenParen => exact ihL _ _ _ _ _ _ h
          | OpenBracket => exact ihL _ _ _ _ _ _ h
          | CloseBracket => exact ihL _ _ _ _ _ _ h
          | Data d => exact ihL _ _ _ _ _ _ h
    · intro ts ex pos acc t p h
      simp only [readVectorF] at h ⊢
      cases hf : readFormF f ts pos with
      | none => rw [hf] at h; exact Option.noConfusion h
      | some res =>
        rw [hf] at h
        cases res with
        | error e => simp at h
        | ok tp =>
          obtain ⟨t0, p0⟩ := tp
          rw [ihF _ ex _ _ _ hf]
          cases t0 with
          | CloseBracket => exact h
          | OpenParen => exact ihV _ _ _ _ _ _ h
          | OpenBracket => exact ihV _ _ _ _ _ _ h
          | CloseParen => exact ihV _ _ _ _ _ _ h
          | Data d => exact ihV _ _ _ _ _ _ h

/-- A successful `read_form` never looks past its result: appending tokens
to the stream does not change it. -/
theorem read_form_append {ts ex : List MalToken} {pos : Nat} {t : MalToken} {p : Nat}
    (h : read_form ts pos = .ok (t, p)) : read_form (ts ++ ex) pos = .ok (t, p) := by
  have hF : readFormF (2 * (ts.length + 1 - pos) + 1) ts pos = some (.ok (t, p)) := by
    rw [read_form_eqF (Nat.le_refl _), h]
  have h2 := (readF_append _).1 ts ex pos t p hF
  have h3 := readFormF_mono (f := 2 * (ts.length + 1 - pos) + 1)
    (g := 2 * ((ts ++ ex).length + 1 - pos) + 1) (by simp; omega) h2
  rw [read_form_eqF (Nat.le_refl _)] at h3
  injection h3

/-- `parseTokens` only examines the tokens of the first form: appending
trailing tokens never changes a successful parse. -/
theorem parseTokens_append {ts ex : List MalToken} {d : MalDataType}
    (h : parseTokens ts = .ok d) : parseTokens (ts ++ ex) = .ok d := by
  unfold parseTokens at h ⊢
  cases hr : read_form ts 0 with
  | error e => rw [hr] at h; exact absurd h (by simp)
  | ok tp =>
    obtain ⟨t, p⟩ := tp
    rw [hr] at h
    cases t with
    | Data d0 =>
      rw [read_form_append hr]
      exact h
    | OpenParen => simp at h
    | OpenBracket => simp at h
    | CloseParen => simp at h
    | CloseBracket => simp at h

/-! ## Lexer and classifier helper lemmas -/

theorem lexer_all_skip {s : List Char} (h : ∀ c ∈ s, lexSkip c = true) :
    lexer s = [] := by
  unfold lexer
  have hd : s.dropWhile lexSkip = [] := List.dropWhile_eq_nil_iff.mpr h
  simp only [lexLoop, hd]

theorem from_str_not_special {s : List Char}
    (h1 : s ≠ "(".data) (h2 : s ≠ ")".data) (h3 : s ≠ "[".data) (h4 : s ≠ "]".data)
    (h5 : s ≠ "nil".data) (h6 : s ≠ "true".data) (h7 : s ≠ "false".data)
    (h8 : s.head? ≠ some ':') (h9 : s.all (fun c => c.isDigit) = false)
    (h10 : s.head? ≠ some '"') :
    from_str s =
      if s.contains '"' then some (.error (.IllegalSymbol s))
      else
        match s with
        | [] => none
        | c :: _ =>
          if c.isDigit then some (.error (.IllegalSymbol s))
          else some (.ok (.Data (.Symbol s))) := by
  unfold from_str
  rw [if_neg h1, if_neg h2, if_neg h3, if_neg h4, if_neg h5, if_neg h6, if_neg h7,
    if_neg h8, if_neg (by simp [h9]), if_neg h10]

/-! ## Claim theorems (C2 - C10; C1 follows the round-trip development
further below) -/

/-- Claim C2, counterexample: the loose-closer reading is false on the
code.  `read_str "(]"` does not succeed with the empty list; the
mismatched `]` is treated as an ordinary form, pushed into the list, and
the parse then runs off the end of the stream, failing with
`UnterminatedList`. -/
theorem C2_counterexample :
    read_str "(]" MalEnvironment.new = some (.error .UnterminatedList) ∧
    ¬ read_str "(]" MalEnvironment.new = some (.ok (.List [])) := by
  refine ⟨rfl, ?_⟩
  intro h
  rw [show read_str "(]" MalEnvironment.new = some (.error .UnterminatedList) from rfl] at h
  injection h with h2
  exact Except.noConfusion h2

/-- Claim C2, amended: `read_list` / `read_vector` terminate only on their
own matching closer; a closing bracket of the other kind is consumed as an
element of the open container.  In particular `read_str "(]"` fails with
`UnterminatedList`, while `read_str "(])"` returns the list containing the
stray `CloseBracket` token and `read_str "[)]"` the vector containing the
stray `CloseParen` token. -/
theorem C2_strict_closer_amended : ∀ env : MalEnvironment,
    read_str "(]" env = some (.error .UnterminatedList) ∧
    read_str "(])" env = some (.ok (.List [.CloseBracket])) ∧
    read_str "[)]" env = some (.ok (.Vector [.CloseParen])) :=
  fun _ => ⟨rfl, rfl, rfl⟩

/-- Claim C3: the all-digits classifier arm calls
`s.parse::<usize>().unwrap()`, so a digit lexeme whose value exceeds
`usize::MAX` aborts the process (modelled by `none`) instead of returning a
typed reader error; the largest representable value still classifies. -/
theorem C3_overflow_aborts :
    from_str "18446744073709551616".data = none ∧
    read_str "18446744073709551616" MalEnvironment.new = none ∧
    from_str "18446744073709551615".data =
      some (.ok (.Data (.Int 18446744073709551615))) :=
  ⟨rfl, rfl, rfl⟩

/-- Claim C4: when the token stream is exhausted while a container is
still open, `peek` fails, the container loop stops, and the failure is
reported as `UnterminatedList` (no partial result exists: the result type
carries either a value or an error).  Concretely `read_str "(1 2"` fails
with `UnterminatedList`; in general both container readers fail that way
whenever the cursor has moved past the end of the stream. -/
theorem C4_unterminated :
    (∀ env : MalEnvironment, read_str "(1 2" env = some (.error .UnterminatedList)) ∧
    (∀ (ts : List MalToken) (pos : Nat) (acc : List MalToken), ts.length ≤ pos →
      read_list ts pos acc = .error .UnterminatedList ∧
      read_vector ts pos acc = .error .UnterminatedList) := by
  constructor
  · intro _; rfl
  · intro ts pos acc hle
    have hp : peek ts pos = .error .UnterminatedList := by
      unfold peek
      rw [List.get?_eq_none.mpr hle]
    have hf : read_form ts pos = .error .UnterminatedList := by
      rw [read_form_eq, hp]
    constructor
    · rw [read_list_eq, hf]
    · rw [read_vector_eq, hf]

theorem C4_unterminated_witness :
    read_str "(1 2" MalEnvironment.new = some (.error .UnterminatedList) ∧
    read_list [.OpenParen] 3 [] = .error .UnterminatedList :=
  ⟨C4_unterminated.1 MalEnvironment.new,
   (C4_unterminated.2 [.OpenParen] 3 [] (by decide)).1⟩

/-- Claim C5: the environment noninterference hyperproperty.  `read_str`
never consults its environment argument (the reader-macro table is built
but unused), so any two environments give identical results on every
input. -/
theorem C5_env_noninterference : ∀ (s : String) (e1 e2 : MalEnvironment),
    read_str s e1 = read_str s e2 :=
  fun _ _ _ => rfl

/-- Claim C6: termination and cursor monotonicity.  Any fuel beyond the
linear bound `2 * (tokens + 1) + 1` makes the fuelled `read_form` return
(and agree with the fuel-free `read_form`), so the source recursion
terminates in linearly many steps; and a successful `read_form` or
`read_list` leaves the cursor at or after its starting position (and
inside the stream), so the cursor is monotone: no token position is ever
revisited after being consumed. -/
theorem C6_termination_monotone :
    (∀ (ts : List MalToken) (pos fuel : Nat),
      2 * (ts.length + 1 - pos) + 1 ≤ fuel →
      readFormF fuel ts pos = some (read_form ts pos)) ∧
    (∀ (ts : List MalToken) (pos : Nat) (t : MalToken) (p : Nat),
      read_form ts pos = .ok (t, p) → pos ≤ p ∧ p < ts.length) ∧
    (∀ (ts : List MalToken) (pos : Nat) (acc : List MalToken) (t : MalToken) (p : Nat),
      read_list ts pos acc = .ok (t, p) → pos ≤ p ∧ p < ts.length) := by
  refine ⟨fun ts pos fuel hf => read_form_eqF hf, ?_, ?_⟩
  · intro ts pos t p h
    have hF : readFormF (2 * (ts.length + 1 - pos) + 1) ts pos = some (.ok (t, p)) := by
      rw [read_form_eqF (Nat.le_refl _), h]
    exact (readF_pos_le _).1 ts pos t p hF
  · intro ts pos acc t p h
    have hF : readListF (2 * (ts.length + 1 - pos) + 2) ts pos acc = some (.ok (t, p)) := by
      rw [read_list_eqF (Nat.le_refl _), h]
    exact (readF_pos_le _).2.1 ts pos acc t p hF

theorem C6_witness :
    readFormF 5 [.Data .Nil] 0 = some (read_form [.Data .Nil] 0) ∧
    (0 ≤ 0 ∧ 0 < [MalToken.Data .Nil].length) :=
  ⟨C6_termination_monotone.1 [.Data .Nil] 0 5 (by decide),
   C6_termination_monotone.2.1 [.Data .Nil] 0 (.Data .Nil) 0 rfl⟩

/-- Claim C7: the specified example parse, for every environment. -/
theorem C7_example_parse : ∀ env : MalEnvironment,
    read_str "(+ 2 3 nil false)" env =
      some (.ok (.List [.Data (.Symbol "+".data), .Data (.Int 2), .Data (.Int 3),
        .Data .Nil, .Data (.Boolean false)])) :=
  fun _ => rfl

/-- Claim C8: on input consisting only of whitespace and commas the lexer
yields no lexemes, and `read_str` fails with the well-defined
`UnterminatedList` error from `peek` on the empty token stream — a total
result (`some`), not an out-of-bounds access or abort (`none`). -/
theorem C8_whitespace_safe : ∀ (s : String) (env : MalEnvironment),
    (∀ c ∈ s.data, isWsC c = true ∨ c = ',') →
    lexer s.data = [] ∧ read_str s env = some (.error .UnterminatedList) := by
  intro s env h
  have hskip : ∀ c ∈ s.data, lexSkip c = true := by
    intro c hc
    unfold lexSkip
    rcases h c hc with h' | h'
    · simp [h']
    · simp [h']
  have hl := lexer_all_skip hskip
  refine ⟨hl, ?_⟩
  unfold read_str
  rw [hl]
  rfl

theorem C8_whitespace_safe_witness :
    lexer " \t, ,\n ".data = [] ∧
    read_str " \t, ,\n " MalEnvironment.new = some (.error .UnterminatedList) :=
  C8_whitespace_safe " \t, ,\n " MalEnvironment.new (by decide)

/-- Claim C9: the final (symbol) classifier arm fails with `IllegalSymbol`
exactly when the lexeme contains a double quote or starts with a digit,
and otherwise yields the symbol; concretely `read_str "1abc"` fails with
`IllegalSymbol`. -/
theorem C9_illegal_symbol_iff :
    (∀ s : List Char,
      s ≠ "(".data → s ≠ ")".data → s ≠ "[".data → s ≠ "]".data →
      s ≠ "nil".data → s ≠ "true".data → s ≠ "false".data →
      s.head? ≠ some ':' → s.all (fun c => c.isDigit) = false → s.head? ≠ some '"' →
      ((from_str s = some (.error (.IllegalSymbol s))) ↔
        ('"' ∈ s ∨ ∃ c, s.head? = some c ∧ c.isDigit = true)) ∧
      (('"' ∉ s ∧ (∀ c, s.head? = some c → c.isDigit = false)) →
        from_str s = some (.ok (.Data (.Symbol s))))) ∧
    (∀ env : MalEnvironment,
      read_str "1abc" env = some (.error (.IllegalSymbol "1abc".data))) := by
  constructor
  · intro s h1 h2 h3 h4 h5 h6 h7 h8 h9 h10
    have hfs := from_str_not_special h1 h2 h3 h4 h5 h6 h7 h8 h9 h10
    cases s with
    | nil => simp at h9
    | cons c rest =>
      by_cases hq : '"' ∈ c :: rest
      · rw [if_pos (by simpa using hq)] at hfs
        constructor
        · rw [hfs]
          exact ⟨fun _ => Or.inl hq, fun _ => rfl⟩
        · rintro ⟨hq', -⟩
          exact absurd hq hq'
      · rw [if_neg (by simpa using hq)] at hfs
        have hfs2 : from_str (c :: rest) =
            (if c.isDigit then some (.error (.IllegalSymbol (c :: rest)))
             else some (.ok (.Data (.Symbol (c :: rest))))) := hfs
        by_cases hd : c.isDigit = true
        · rw [if_pos hd] at hfs2
          constructor
          · rw [hfs2]
            exact ⟨fun _ => Or.inr ⟨c, rfl, hd⟩, fun _ => rfl⟩
          · rintro ⟨-, hnd⟩
            exact absurd (hnd c rfl) (by simp [hd])
        · rw [if_neg hd] at hfs2
          constructor
          · rw [hfs2]
            constructor
            · intro h'
              injection h' with h''
              exact absurd h'' (by simp)
            · rintro (h' | ⟨c', hc', hd'⟩)
              · exact absurd h' hq
              · injection hc' with hc''
                exact absurd (hc'' ▸ hd') hd
          · intro _
            exact hfs2
  · intro _; rfl

theorem C9_illegal_symbol_iff_witness :
    (from_str "1abc".data = some (.error (.IllegalSymbol "1abc".data)) ↔
      ('"' ∈ "1abc".data ∨ ∃ c, "1abc".data.head? = some c ∧ c.isDigit = true)) ∧
    from_str "zz".data = some (.ok (.Data (.Symbol "zz".data))) :=
  ⟨(C9_illegal_symbol_iff.1 "1abc".data (by decide) (by decide) (by decide) (by decide)
      (by decide) (by decide) (by decide) (by decide) (by decide) (by decide)).1,
   (C9_illegal_symbol_iff.1 "zz".data (by decide) (by decide) (by decide) (by decide)
      (by decide) (by decide) (by decide) (by decide) (by decide) (by decide)).2
     ⟨by decide, by decide⟩⟩

/-- Claim C10: `read_str` parses exactly one form and silently ignores
everything after it: concretely `read_str "1 2"` succeeds with `Int 1`,
and in general appending any trailing tokens to a successfully parsed
token stream leaves the result unchanged (no error is reported for the
extra tokens). -/
theorem C10_first_form_only :
    (∀ env : MalEnvironment, read_str "1 2" env = some (.ok (.Int 1))) ∧
    (∀ (ts ex : List MalToken) (d : MalDataType),
      parseTokens ts = .ok d → parseTokens (ts ++ ex) = .ok d) :=
  ⟨fun _ => rfl, fun _ _ _ h => parseTokens_append h⟩

theorem C10_first_form_only_witness :
    parseTokens ([.Data (.Int 1)] ++ [.Data (.Int 2)]) = .ok (.Int 1) ∧
    read_str "1 2" MalEnvironment.new = some (.ok (.Int 1)) :=
  ⟨C10_first_form_only.2 [.Data (.Int 1)] [.Data (.Int 2)] (.Int 1) rfl,
   C10_first_form_only.1 MalEnvironment.new⟩

/-! ## Decimal rendering lemmas -/

theorem natToDecGo_congr : ∀ (n f g : Nat), n < f → n < g →
    natToDecGo f n = natToDecGo g n := by
  intro n
  induction n using Nat.strong_induction_on with
  | _ n ih =>
    intro f g hf hg
    cases f with
    | zero => omega
    | succ f =>
      cases g with
      | zero => omega
      | succ g =>
        simp only [natToDecGo]
        by_cases h10 : n < 10
        · rw [if_pos h10, if_pos h10]
        · rw [if_neg h10, if_neg h10]
          have hlt : n / 10 < n := Nat.div_lt_self (by omega) (by omega)
          rw [ih (n / 10) hlt f g (by omega) (by omega)]

theorem natToDec_eq (n : Nat) :
    natToDec n = if n < 10 then [digitChar n]
                 else natToDec (n / 10) ++ [digitChar (n % 10)] := by
  have hstep : natToDecGo (n + 1) n =
      if n < 10 then [digitChar n] else natToDecGo n (n / 10) ++ [digitChar (n % 10)] := rfl
  by_cases h10 : n < 10
  · rw [if_pos h10]
    unfold natToDec
    rw [hstep, if_pos h10]
  · rw [if_neg h10]
    unfold natToDec
    rw [hstep, if_neg h10,
      natToDecGo_congr (n / 10) n (n / 10 + 1) (Nat.div_lt_self (by omega) (by omega)) (by omega)]

theorem digitChar_facts : ∀ d, d < 10 →
    (digitChar d).isDigit = true ∧ (digitChar d).toNat - 48 = d := by
  decide

theorem natToDec_spec : ∀ n : Nat,
    natToDec n ≠ [] ∧ (natToDec n).all (fun c => c.isDigit) = true ∧
    listToNat (natToDec n) = n := by
  intro n
  induction n using Nat.strong_induction_on with
  | _ n ih =>
    rw [natToDec_eq]
    by_cases h10 : n < 10
    · rw [if_pos h10]
      obtain ⟨hd, hv⟩ := digitChar_facts n h10
      refine ⟨by simp, by simp [hd], ?_⟩
      simp only [listToNat, List.foldl_cons, List.foldl_nil]
      omega
    · rw [if_neg h10]
      have hlt : n / 10 < n := Nat.div_lt_self (by omega) (by omega)
      obtain ⟨hne, hall, hval⟩ := ih (n / 10) hlt
      obtain ⟨hd, hv⟩ := digitChar_facts (n % 10) (Nat.mod_lt _ (by omega))
      refine ⟨by simp, ?_, ?_⟩
      · simp [List.all_append, hall, hd]
      · simp only [listToNat, List.foldl_append, List.foldl_cons, List.foldl_nil]
        have hv' : List.foldl (fun a c => 10 * a + (c.toNat - 48)) 0 (natToDec (n / 10)) = n / 10 :=
          hval
        rw [hv']
        omega

/-! ## Character-class lemmas -/

theorem isDigit_not_stop {c : Char} (h : c.isDigit = true) : isBareStop c = false := by
  unfold isBareStop
  have hws : isWsC c = false := by
    by_contra hcon
    rw [Bool.not_eq_false] at hcon
    unfold isWsC at hcon
    simp only [Bool.or_eq_true, decide_eq_true_eq] at hcon
    rcases hcon with ((((h' | h') | h') | h') | h') | h' <;>
      (subst h'; exact absurd h (by decide))
  have hmem : bareStopChars.contains c = false := by
    by_contra hcon
    rw [Bool.not_eq_false, List.contains_eq_any_beq] at hcon
    simp only [List.any_eq_true, beq_iff_eq] at hcon
    obtain ⟨x, hx, hxc⟩ := hcon
    subst hxc
    have hf := (by decide : ∀ y ∈ bareStopChars, y.isDigit = false) _ hx
    rw [h] at hf
    exact Bool.noConfusion hf
  rw [hws, hmem]
  rfl

theorem isDigit_not_punct {c : Char} (h : c.isDigit = true) : isPunctC c = false := by
  unfold isPunctC
  by_contra hcon
  rw [Bool.not_eq_false, List.contains_eq_any_beq] at hcon
  simp only [List.any_eq_true, beq_iff_eq] at hcon
  obtain ⟨x, hx, hxc⟩ := hcon
  subst hxc
  have hf := (by decide : ∀ y ∈ punctChars, y.isDigit = false) _ hx
  rw [h] at hf
  exact Bool.noConfusion hf

theorem isDigit_ne {c : Char} (h : c.isDigit = true) :
    c ≠ '"' ∧ c ≠ ';' ∧ c ≠ '~' ∧ c ≠ ':' := by
  refine ⟨?_, ?_, ?_, ?_⟩ <;> (intro h'; subst h'; exact absurd h (by decide))

theorem isBareChar_iff {c : Char} : isBareChar c = true ↔ isBareStop c = false := by
  unfold isBareChar
  cases hbs : isBareStop c <;> simp

theorem bareStop_split {c : Char} (h : isBareStop c = false) :
    isWsC c = false ∧ bareStopChars.contains c = false := by
  unfold isBareStop at h
  exact Bool.or_eq_false_iff.mp h

theorem isBareChar_not_skip {c : Char} (h : isBareChar c = true) : lexSkip c = false := by
  obtain ⟨hws, hmem⟩ := bareStop_split (isBareChar_iff.mp h)
  unfold lexSkip
  rw [hws, Bool.false_or, decide_eq_false_iff_not]
  intro h'
  subst h'
  rw [(by decide : bareStopChars.contains ',' = true)] at hmem
  exact Bool.noConfusion hmem

theorem isBareChar_ne {c : Char} (h : isBareChar c = true) :
    c ≠ '"' ∧ c ≠ ';' := by
  obtain ⟨hws, hmem⟩ := bareStop_split (isBareChar_iff.mp h)
  constructor <;> (intro h'; subst h')
  · rw [(by decide : bareStopChars.contains '"' = true)] at hmem
    exact Bool.noConfusion hmem
  · rw [(by decide : bareStopChars.contains ';' = true)] at hmem
    exact Bool.noConfusion hmem

theorem bareHead_not_punct {c : Char} (hb : isBareChar c = true) (hh : bareHeadOK c = true) :
    isPunctC c = false := by
  obtain ⟨hws, hmem⟩ := bareStop_split (isBareChar_iff.mp hb)
  by_contra hcon
  rw [Bool.not_eq_false, isPunctC, List.contains_eq_any_beq] at hcon
  simp only [List.any_eq_true, beq_iff_eq] at hcon
  obtain ⟨x, hx, hxc⟩ := hcon
  subst hxc
  have hsplit := (by decide :
    ∀ y ∈ punctChars, bareStopChars.contains y = true ∨ y = '~' ∨ y = '^' ∨ y = '@') _ hx
  unfold bareHeadOK at hh
  simp only [Bool.and_eq_true, Bool.not_eq_eq_eq_not, Bool.not_true,
    decide_eq_false_iff_not] at hh
  obtain ⟨⟨⟨⟨hd0, hcolon⟩, htilde⟩, hcaret⟩, hat⟩ := hh
  rcases hsplit with h' | h' | h' | h'
  · rw [h'] at hmem; exact Bool.noConfusion hmem
  · exact absurd h' htilde
  · exact absurd h' hcaret
  · exact absurd h' hat

/-! ## Lexer step lemmas -/

theorem scanStr_single (c : Char) :
    scanStr [c] =
      if c = '"' then ([c], [])
      else if c = '\\' then ([], [c])
      else (c :: (scanStr []).1, (scanStr []).2) := by rfl

theorem scanStr_cons2 (c c2 : Char) (r2 : List Char) :
    scanStr (c :: c2 :: r2) =
      if c = '"' then ([c], c2 :: r2)
      else if c = '\\' then
        (if c2 = '\n' then ([], c :: c2 :: r2)
         else (c :: c2 :: (scanStr r2).1, (scanStr r2).2))
      else (c :: (scanStr (c2 :: r2)).1, (scanStr (c2 :: r2)).2) := by rfl

theorem strBody_single (c : Char) :
    strBody [c] = if c = '"' then true else if c = '\\' then false else false := by rfl

theorem strBody_cons2 (c c2 : Char) (r2 : List Char) :
    strBody (c :: c2 :: r2) =
      if c = '"' then false
      else if c = '\\' then (if c2 = '\n' then false else strBody r2)
      else strBody (c2 :: r2) := by rfl

theorem lexLoop_succ (fuel : Nat) (s : List Char) :
    lexLoop (fuel + 1) s =
      match s.dropWhile lexSkip with
      | [] => []
      | c :: r =>
        if c = '~' ∧ r.head? = some '@' then ['~', '@'] :: lexLoop fuel (r.drop 1)
        else if isPunctC c then [c] :: lexLoop fuel r
        else if c = '"' then
          ('"' :: (scanStr r).1) :: lexLoop fuel (scanStr r).2
        else if c = ';' then
          ((c :: r).takeWhile isCommentChar) :: lexLoop fuel ((c :: r).dropWhile isCommentChar)
        else
          ((c :: r).takeWhile isBareChar) :: lexLoop fuel ((c :: r).dropWhile isBareChar) := by rfl

theorem scanStr_rest_le : ∀ l : List Char, (scanStr l).2.length ≤ l.length := by
  suffices H : ∀ (n : Nat) (l : List Char), l.length ≤ n → (scanStr l).2.length ≤ l.length by
    exact fun l => H l.length l (Nat.le_refl _)
  intro n
  induction n with
  | zero =>
    intro l h
    rw [List.length_eq_zero.mp (Nat.le_zero.mp h)]
    simp [scanStr]
  | succ n ih =>
    intro l h
    cases l with
    | nil => simp [scanStr]
    | cons c r =>
      cases r with
      | nil =>
        rw [scanStr_single]
        by_cases h1 : c = '"'
        · rw [if_pos h1]; simp
        · rw [if_neg h1]
          by_cases h2 : c = '\\'
          · rw [if_pos h2]
          · rw [if_neg h2]; simp [scanStr]
      | cons c2 r2 =>
        rw [scanStr_cons2]
        by_cases h1 : c = '"'
        · rw [if_pos h1]; simp
        · rw [if_neg h1]
          by_cases h2 : c = '\\'
          · rw [if_pos h2]
            by_cases h3 : c2 = '\n'
            · rw [if_pos h3]
            · rw [if_neg h3]
              have := ih r2 (by simp at h; omega)
              simp only [List.length_cons]
              omega
          · rw [if_neg h2]
            have := ih (c2 :: r2) (by simp at h ⊢; omega)
            simp only [List.length_cons] at this ⊢
            omega

theorem scanStr_strBody : ∀ (b : List Char), strBody b = true →
    ∀ x, scanStr (b ++ x) = (b, x) := by
  suffices H : ∀ (n : Nat) (b : List Char), b.length ≤ n → strBody b = true →
      ∀ x, scanStr (b ++ x) = (b, x) by
    exact fun b hb x => H b.length b (Nat.le_refl _) hb x
  intro n
  induction n with
  | zero =>
    intro b h hb x
    rw [List.length_eq_zero.mp (Nat.le_zero.mp h)] at hb
    exact absurd hb (by simp [strBody])
  | succ n ih =>
    intro b h hb x
    cases b with
    | nil => exact absurd hb (by simp [strBody])
    | cons c r =>
      cases r with
      | nil =>
        rw [strBody_single] at hb
        by_cases h1 : c = '"'
        · subst h1
          rw [List.singleton_append]
          cases x with
          | nil => rw [scanStr_single, if_pos rfl]
          | cons x1 xr => rw [scanStr_cons2, if_pos rfl]
        · rw [if_neg h1] at hb
          split_ifs at hb
      | cons c2 r2 =>
        rw [strBody_cons2] at hb
        by_cases h1 : c = '"'
        · rw [if_pos h1] at hb; exact Bool.noConfusion hb
        · rw [if_neg h1] at hb
          by_cases h2 : c = '\\'
          · rw [if_pos h2] at hb
            by_cases h3 : c2 = '\n'
            · rw [if_pos h3] at hb; exact Bool.noConfusion hb
            · rw [if_neg h3] at hb
              rw [List.cons_append, List.cons_append, scanStr_cons2, if_neg h1, if_pos h2,
                if_neg h3, ih r2 (by simp at h; omega) hb x]
          · rw [if_neg h2] at hb
            rw [List.cons_append, List.cons_append, scanStr_cons2, if_neg h1, if_neg h2]
            rw [show c2 :: (r2 ++ x) = (c2 :: r2) ++ x from rfl,
              ih (c2 :: r2) (by simp at h ⊢; omega) hb x]

theorem strBody_ne_nil {b : List Char} (hb : strBody b = true) : b ≠ [] := by
  intro h
  rw [h] at hb
  exact absurd hb (by simp [strBody])

theorem dropWhile_head_false {p : Char → Bool} :
    ∀ {s c : _} {r : List Char}, List.dropWhile p s = c :: r → p c = false := by
  intro s
  induction s with
  | nil => intro c r h; exact absurd h (by simp)
  | cons a s ih =>
    intro c r h
    by_cases ha : p a = true
    · rw [List.dropWhile_cons_of_pos ha] at h
      exact ih h
    · rw [List.dropWhile_cons_of_neg ha] at h
      injection h with h1 h2
      subst h1
      exact Bool.not_eq_true _ ▸ ha

theorem not_stop_of_conds {c : Char} (hskip : lexSkip c = false) (hp : isPunctC c = false)
    (hq : c ≠ '"') (hsemi : c ≠ ';') : isBareStop c = false := by
  unfold isBareStop
  unfold lexSkip at hskip
  obtain ⟨hws, hcomma⟩ := Bool.or_eq_false_iff.mp hskip
  rw [hws, Bool.false_or]
  by_contra hcon
  rw [Bool.not_eq_false, List.contains_eq_any_beq] at hcon
  simp only [List.any_eq_true, beq_iff_eq] at hcon
  obtain ⟨x, hx, hxc⟩ := hcon
  subst hxc
  have hsplit := (by decide :
    ∀ y ∈ bareStopChars, isPunctC y = true ∨ y = '"' ∨ y = ';' ∨ y = ',') _ hx
  rcases hsplit with h' | h' | h' | h'
  · rw [h'] at hp; exact Bool.noConfusion hp
  · exact hq h'
  · exact hsemi h'
  · subst h'
    simp at hcomma

theorem length_dropWhile_le' (p : Char → Bool) (l : List Char) :
    (l.dropWhile p).length ≤ l.length := by
  induction l with
  | nil => simp
  | cons a l ih =>
    by_cases h : p a = true
    · rw [List.dropWhile_cons_of_pos h]; simp only [List.length_cons]; omega
    · rw [List.dropWhile_cons_of_neg h]

theorem lexLoop_succ_nil {fuel : Nat} {s : List Char} (hD : s.dropWhile lexSkip = []) :
    lexLoop (fuel + 1) s = [] := by
  rw [lexLoop_succ, hD]

theorem lexLoop_succ_eq {fuel : Nat} {s : List Char} {c : Char} {r : List Char}
    (hD : s.dropWhile lexSkip = c :: r) :
    lexLoop (fuel + 1) s =
      if c = '~' ∧ r.head? = some '@' then ['~', '@'] :: lexLoop fuel (r.drop 1)
      else if isPunctC c then [c] :: lexLoop fuel r
      else if c = '"' then
        ('"' :: (scanStr r).1) :: lexLoop fuel (scanStr r).2
      else if c = ';' then
        ((c :: r).takeWhile isCommentChar) :: lexLoop fuel ((c :: r).dropWhile isCommentChar)
      else
        ((c :: r).takeWhile isBareChar) :: lexLoop fuel ((c :: r).dropWhile isBareChar) := by
  rw [lexLoop_succ, hD]

theorem lexLoop_congr : ∀ (n f g : Nat) (s : List Char), s.length ≤ n →
    s.length < f → s.length < g → lexLoop f s = lexLoop g s := by
  intro n
  induction n with
  | zero =>
    intro f g s hn hf hg
    rw [List.length_eq_zero.mp (Nat.le_zero.mp hn)]
    cases f with
    | zero => omega
    | succ f =>
      cases g with
      | zero => omega
      | succ g =>
        rw [lexLoop_succ_nil (List.dropWhile_nil), lexLoop_succ_nil (List.dropWhile_nil)]
  | succ n ih =>
    intro f g s hn hf hg
    cases f with
    | zero => omega
    | succ f =>
      cases g with
      | zero => omega
      | succ g =>
        cases hD : s.dropWhile lexSkip with
        | nil => rw [lexLoop_succ_nil hD, lexLoop_succ_nil hD]
        | cons c r =>
          rw [lexLoop_succ_eq hD, lexLoop_succ_eq hD]
          have hlen : (c :: r).length ≤ s.length := by
            rw [← hD]; exact length_dropWhile_le' _ _
          have hr : r.length < s.length := by
            simp only [List.length_cons] at hlen; omega
          by_cases hA : c = '~' ∧ r.head? = some '@'
          · rw [if_pos hA, if_pos hA]
            congr 1
            have hdl : (r.drop 1).length ≤ r.length := by
              rw [List.length_drop]; omega
            exact ih f g (r.drop 1) (by omega) (by omega) (by omega)
          · rw [if_neg hA, if_neg hA]
            by_cases hP : isPunctC c = true
            · rw [if_pos hP, if_pos hP]
              congr 1
              exact ih f g r (by omega) (by omega) (by omega)
            · rw [if_neg hP, if_neg hP]
              by_cases hQ : c = '"'
              · rw [if_pos hQ, if_pos hQ]
                congr 1
                have := scanStr_rest_le r
                exact ih f g (scanStr r).2 (by omega) (by omega) (by omega)
              · rw [if_neg hQ, if_neg hQ]
                by_cases hS : c = ';'
                · rw [if_pos hS, if_pos hS]
                  congr 1
                  have hq : isCommentChar c = true := by subst hS; decide
                  rw [List.dropWhile_cons_of_pos hq]
                  have := length_dropWhile_le' isCommentChar r
                  exact ih f g _ (by omega) (by omega) (by omega)
                · rw [if_neg hS, if_neg hS]
                  congr 1
                  have hskip : lexSkip c = false := dropWhile_head_false hD
                  have hbc : isBareChar c = true := by
                    unfold isBareChar
                    rw [not_stop_of_conds hskip (by simpa using hP) hQ hS]
                    rfl
                  rw [List.dropWhile_cons_of_pos hbc]
                  have := length_dropWhile_le' isBareChar r
                  exact ih f g _ (by omega) (by omega) (by omega)

theorem lexLoop_eq_lexer {f : Nat} {s : List Char} (h : s.length < f) :
    lexLoop f s = lexer s :=
  lexLoop_congr s.length f (s.length + 1) s (Nat.le_refl _) h (Nat.lt_succ_self _)

theorem lexer_nil : lexer [] = [] := rfl

theorem lexLoop_cons_skip (f : Nat) {c : Char} {s : List Char} (h : lexSkip c = true) :
    lexLoop f (c :: s) = lexLoop f s := by
  cases f with
  | zero => rfl
  | succ f => rw [lexLoop_succ, lexLoop_succ, List.dropWhile_cons_of_pos h]

theorem lexer_cons_skip {c : Char} {s : List Char} (h : lexSkip c = true) :
    lexer (c :: s) = lexer s := by
  unfold lexer
  rw [List.length_cons, lexLoop_cons_skip _ h]
  exact lexLoop_congr s.length _ _ s (Nat.le_refl _) (by omega) (by omega)

theorem lexer_cons_punct {c : Char} {s : List Char} (hp : isPunctC c = true)
    (hna : ¬(c = '~' ∧ s.head? = some '@')) :
    lexer (c :: s) = [c] :: lexer s := by
  have hskip : lexSkip c = false := by
    unfold lexSkip
    have h1 : isWsC c = false := by
      by_contra hcon
      rw [Bool.not_eq_false] at hcon
      unfold isWsC at hcon
      simp only [Bool.or_eq_true, decide_eq_true_eq] at hcon
      rcases hcon with ((((h' | h') | h') | h') | h') | h' <;>
        (subst h'; exact absurd hp (by decide))
    have h2 : c ≠ ',' := by
      intro h'; subst h'; exact absurd hp (by decide)
    rw [h1]
    simp [h2]
  have hD : (c :: s).dropWhile lexSkip = c :: s :=
    List.dropWhile_cons_of_neg (by rw [hskip]; exact Bool.noConfusion)
  unfold lexer
  rw [List.length_cons, lexLoop_succ_eq hD, if_neg hna, if_pos hp]

theorem lexer_tilde_at (s : List Char) : lexer ('~' :: '@' :: s) = ['~', '@'] :: lexer s := by
  have hD : ('~' :: '@' :: s).dropWhile lexSkip = '~' :: '@' :: s :=
    List.dropWhile_cons_of_neg (by decide)
  unfold lexer
  rw [List.length_cons, List.length_cons, lexLoop_succ_eq hD, if_pos ⟨rfl, rfl⟩,
    List.drop_succ_cons, List.drop_zero]
  congr 1
  exact lexLoop_congr s.length _ _ s (Nat.le_refl _) (by omega) (by omega)

theorem lexer_cons_quote {b : List Char} (s : List Char) (hb : strBody b = true) :
    lexer ('"' :: (b ++ s)) = ('"' :: b) :: lexer s := by
  have hD : ('"' :: (b ++ s)).dropWhile lexSkip = '"' :: (b ++ s) :=
    List.dropWhile_cons_of_neg (by decide)
  unfold lexer
  rw [List.length_cons, lexLoop_succ_eq hD, if_neg (by simp), if_neg (by decide),
    if_pos rfl, scanStr_strBody b hb s]
  congr 1
  have hne : b ≠ [] := strBody_ne_nil hb
  have hone : 1 ≤ b.length := by
    cases b with
    | nil => exact absurd rfl hne
    | cons x xs => simp
  exact lexLoop_congr s.length _ _ s (Nat.le_refl _) (by simp; omega) (by omega)

theorem sepOK_head {s : List Char} (h : sepOK s) :
    ∀ c, s.head? = some c → isBareChar c = false ∧ c ≠ '@' := by
  intro c hc
  cases s with
  | nil => exact absurd hc (by simp)
  | cons c0 r =>
    have h' : c0 = ' ' ∨ c0 = ')' ∨ c0 = ']' := h
    injection hc with hc'
    subst hc'
    rcases h' with h'' | h'' | h'' <;> (subst h''; exact ⟨by decide, by decide⟩)

theorem takeWhile_append_stop {x s : List Char} (hall : ∀ c ∈ x, isBareChar c = true)
    (hs : ∀ c, s.head? = some c → isBareChar c = false) :
    (x ++ s).takeWhile isBareChar = x ∧ (x ++ s).dropWhile isBareChar = s := by
  induction x with
  | nil =>
    simp only [List.nil_append]
    cases s with
    | nil => simp
    | cons c r =>
      have hc := hs c rfl
      rw [List.takeWhile_cons_of_neg (by rw [hc]; exact Bool.noConfusion),
        List.dropWhile_cons_of_neg (by rw [hc]; exact Bool.noConfusion)]
      exact ⟨rfl, rfl⟩
  | cons a x ih =>
    have ha := hall a (List.mem_cons_self a x)
    obtain ⟨h1, h2⟩ := ih (fun c hc => hall c (List.mem_cons_of_mem _ hc))
    rw [List.cons_append, List.takeWhile_cons_of_pos ha, List.dropWhile_cons_of_pos ha,
      h1, h2]
    exact ⟨rfl, rfl⟩

theorem lexer_bare {x s : List Char} (hne : x ≠ []) (hall : ∀ c ∈ x, isBareChar c = true)
    (hhead : ∀ c, x.head? = some c → isPunctC c = false) (hsep : sepOK s) :
    lexer (x ++ s) = x :: lexer s := by
  cases x with
  | nil => exact absurd rfl hne
  | cons c r =>
    have hc := hall c (List.mem_cons_self c r)
    have hskip := isBareChar_not_skip hc
    obtain ⟨hq, hsemi⟩ := isBareChar_ne hc
    have hp := hhead c rfl
    have ht : c ≠ '~' := by
      intro h'; subst h'; exact absurd hp (by decide)
    have hstop : ∀ c', s.head? = some c' → isBareChar c' = false :=
      fun c' h' => (sepOK_head hsep c' h').1
    obtain ⟨htake, hdrop⟩ := takeWhile_append_stop (x := c :: r) hall hstop
    have hD : (c :: (r ++ s)).dropWhile lexSkip = c :: (r ++ s) :=
      List.dropWhile_cons_of_neg (by rw [hskip]; exact Bool.noConfusion)
    unfold lexer
    rw [List.cons_append, List.length_cons, lexLoop_succ_eq hD]
    rw [if_neg (fun hand => ht hand.1), if_neg (by rw [hp]; exact Bool.noConfusion),
      if_neg hq, if_neg hsemi]
    rw [← List.cons_append, htake, hdrop]
    congr 1
    have hle : s.length ≤ (r ++ s).length := by simp
    exact lexLoop_congr s.length _ _ s (Nat.le_refl _) (by omega) (by omega)

/-! ## Classifier results on canonical lexemes -/

theorem from_str_all_digits {s : List Char} (hne : s ≠ [])
    (hd : s.all (fun c => c.isDigit) = true) (hle : listToNat s ≤ USIZE_MAX) :
    from_str s = some (.ok (.Data (.Int (listToNat s)))) := by
  have hlit : ∀ t : List Char, t.all (fun c => c.isDigit) = false → s ≠ t := by
    intro t ht h'
    subst h'
    rw [hd] at ht
    exact Bool.noConfusion ht
  have hcolon : s.head? ≠ some ':' := by
    cases s with
    | nil => simp
    | cons c r =>
      intro h'
      injection h' with h''
      subst h''
      simp only [List.all_cons, Bool.and_eq_true] at hd
      exact absurd hd.1 (by decide)
  have hquote : s.head? ≠ some '"' := by
    cases s with
    | nil => simp
    | cons c r =>
      intro h'
      injection h' with h''
      subst h''
      simp only [List.all_cons, Bool.and_eq_true] at hd
      exact absurd hd.1 (by decide)
  unfold from_str
  rw [if_neg (hlit _ (by decide)), if_neg (hlit _ (by decide)), if_neg (hlit _ (by decide)),
    if_neg (hlit _ (by decide)), if_neg (hlit _ (by decide)), if_neg (hlit _ (by decide)),
    if_neg (hlit _ (by decide)), if_neg hcolon, if_pos hd,
    if_neg (fun hor => hor.elim (fun h' => hne h') (fun h' => absurd hle (by omega)))]

theorem from_str_keyword {s : List Char} (hk : keywordShape s = true) :
    from_str s = some (.ok (.Data (.Keyword s))) := by
  cases s with
  | nil => exact absurd hk (by simp [keywordShape])
  | cons c rest =>
    have hk' : (if c = ':' then
        (if rest.head? = some ':' then false else true) && (c :: rest).all isBareChar
      else false) = true := hk
    by_cases hc : c = ':'
    · rw [if_pos hc] at hk'
      subst hc
      rw [Bool.and_eq_true] at hk'
      obtain ⟨hdc, hall⟩ := hk'
      have hdc' : rest.head? ≠ some ':' := by
        intro h'
        rw [if_pos h'] at hdc
        exact Bool.noConfusion hdc
      have hhead : (':' :: rest).head? = some ':' := rfl
      have hlit : ∀ t : List Char, t.head? ≠ some ':' → (':' :: rest) ≠ t := by
        intro t ht h'
        rw [← h'] at ht
        exact ht rfl
      unfold from_str
      rw [if_neg (hlit _ (by decide)), if_neg (hlit _ (by decide)),
        if_neg (hlit _ (by decide)), if_neg (hlit _ (by decide)),
        if_neg (hlit _ (by decide)), if_neg (hlit _ (by decide)),
        if_neg (hlit _ (by decide)), if_pos hhead]
      rw [if_neg (by simpa using hdc')]
    · rw [if_neg hc] at hk'
      exact Bool.noConfusion hk'

theorem strBody_getLast : ∀ (b : List Char), strBody b = true → b.getLast? = some '"' := by
  suffices H : ∀ (n : Nat) (b : List Char), b.length ≤ n → strBody b = true →
      b.getLast? = some '"' by
    exact fun b => H b.length b (Nat.le_refl _)
  intro n
  induction n with
  | zero =>
    intro b h hb
    rw [List.length_eq_zero.mp (Nat.le_zero.mp h)] at hb
    exact absurd hb (by simp [strBody])
  | succ n ih =>
    intro b h hb
    cases b with
    | nil => exact absurd hb (by simp [strBody])
    | cons c r =>
      cases r with
      | nil =>
        rw [strBody_single] at hb
        by_cases h1 : c = '"'
        · subst h1; rfl
        · rw [if_neg h1] at hb
          split_ifs at hb
      | cons c2 r2 =>
        rw [strBody_cons2] at hb
        by_cases h1 : c = '"'
        · rw [if_pos h1] at hb; exact Bool.noConfusion hb
        · rw [if_neg h1] at hb
          by_cases h2 : c = '\\'
          · rw [if_pos h2] at hb
            by_cases h3 : c2 = '\n'
            · rw [if_pos h3] at hb; exact Bool.noConfusion hb
            · rw [if_neg h3] at hb
              have hlast := ih r2 (by simp at h; omega) hb
              have hne := strBody_ne_nil hb
              cases r2 with
              | nil => exact absurd rfl hne
              | cons x xs =>
                rw [List.getLast?_cons_cons, List.getLast?_cons_cons]
                exact hlast
          · rw [if_neg h2] at hb
            have hlast := ih (c2 :: r2) (by simp at h ⊢; omega) hb
            rw [List.getLast?_cons_cons]
            exact hlast

theorem contains_true_mem {l : List Char} {c : Char} (h : l.contains c = true) : c ∈ l := by
  rw [List.contains_eq_any_beq] at h
  simp only [List.any_eq_true, beq_iff_eq] at h
  obtain ⟨x, hx, hxc⟩ := h
  subst hxc
  exact hx

theorem from_str_string {s : List Char} (hs : strShape s = true) :
    from_str s = some (.ok (.Data (.String s))) := by
  cases s with
  | nil => exact absurd hs (by simp [strShape])
  | cons c body =>
    have hs' : (if c = '"' then strBody body else false) = true := hs
    by_cases h1 : c = '"'
    · rw [if_pos h1] at hs'
      subst h1
      have hhead : ('"' :: body).head? = some '"' := rfl
      have hlit : ∀ t : List Char, t.head? ≠ some '"' → ('"' :: body) ≠ t := by
        intro t ht h'
        rw [← h'] at ht
        exact ht rfl
      have hdig : ('"' :: body).all (fun c => c.isDigit) = false := by
        simp only [List.all_cons]
        rw [(by decide : ('"' : Char).isDigit = false)]
        rfl
      have hne := strBody_ne_nil hs'
      have hlen : ¬ ('"' :: body).length < 2 := by
        cases body with
        | nil => exact absurd rfl hne
        | cons x xs => simp only [List.length_cons]; omega
      have hlast : ('"' :: body).getLast? = some '"' := by
        cases body with
        | nil => exact absurd rfl hne
        | cons x xs =>
          rw [List.getLast?_cons_cons]
          exact strBody_getLast _ hs'
      have hcolon : ('"' :: body).head? ≠ some ':' := by
        intro h'
        injection h' with h''
        exact absurd h'' (by decide)
      unfold from_str
      rw [if_neg (hlit _ (by decide)), if_neg (hlit _ (by decide)),
        if_neg (hlit _ (by decide)), if_neg (hlit _ (by decide)),
        if_neg (hlit _ (by decide)), if_neg (hlit _ (by decide)),
        if_neg (hlit _ (by decide)), if_neg hcolon, if_neg (by simp [hdig]),
        if_pos hhead,
        if_neg (fun hor => hor.elim hlen (fun h' => h' hlast))]
    · rw [if_neg h1] at hs'
      exact Bool.noConfusion hs'

theorem from_str_symbol {s : List Char} (hs : symShape s = true) :
    from_str s = some (.ok (.Data (.Symbol s))) := by
  unfold symShape at hs
  rw [Bool.or_eq_true, Bool.or_eq_true] at hs
  rcases hs with (h1 | h2) | h3
  · have hseq : s = ['~', '@'] := by simpa using h1
    subst hseq
    rfl
  · cases s with
    | nil => exact Bool.noConfusion h2
    | cons c rest =>
      cases rest with
      | nil =>
        have h2' : punct7.contains c = true := h2
        have hmem := contains_true_mem h2'
        fin_cases hmem <;> rfl
      | cons c2 r2 => exact Bool.noConfusion h2
  · rw [Bool.and_eq_true, Bool.and_eq_true, Bool.and_eq_true] at h3
    obtain ⟨⟨⟨hbs, hn1⟩, hn2⟩, hn3⟩ := h3
    cases s with
    | nil => exact Bool.noConfusion hbs
    | cons c rest =>
      have hb' : (bareHeadOK c && (c :: rest).all isBareChar) = true := hbs
      rw [Bool.and_eq_true] at hb'
      obtain ⟨hhok, hall⟩ := hb'
      have hallm : ∀ x ∈ c :: rest, isBareChar x = true := by
        intro x hx
        exact List.all_eq_true.mp hall x hx
      unfold bareHeadOK at hhok
      simp only [Bool.and_eq_true, Bool.not_eq_eq_eq_not, Bool.not_true,
        decide_eq_false_iff_not] at hhok
      obtain ⟨⟨⟨⟨hd0, hcolon0⟩, htilde⟩, hcaret⟩, hat⟩ := hhok
      have hstoplit : ∀ t : List Char, t.all isBareChar = false → (c :: rest) ≠ t := by
        intro t ht h'
        rw [h'] at hall
        rw [hall] at ht
        exact Bool.noConfusion ht
      have hcolon : (c :: rest).head? ≠ some ':' := by
        intro h'
        injection h' with h''
        exact hcolon0 h''
      have hquote : (c :: rest).head? ≠ some '"' := by
        intro h'
        injection h' with h''
        exact (isBareChar_ne (hallm c (List.mem_cons_self c rest))).1 h''
      have hdig : (c :: rest).all (fun x => x.isDigit) = false := by
        simp only [List.all_cons]
        rw [(by simpa using hd0 : c.isDigit = false)]
        rfl
      have hnq : (c :: rest).contains '"' = false := by
        by_contra hcon
        rw [Bool.not_eq_false] at hcon
        have := hallm '"' (contains_true_mem hcon)
        exact absurd this (by decide)
      have hn1' : c :: rest ≠ "nil".data := by
        rwa [Bool.not_eq_true', decide_eq_false_iff_not] at hn1
      have hn2' : c :: rest ≠ "true".data := by
        rwa [Bool.not_eq_true', decide_eq_false_iff_not] at hn2
      have hn3' : c :: rest ≠ "false".data := by
        rwa [Bool.not_eq_true', decide_eq_false_iff_not] at hn3
      unfold from_str
      rw [if_neg (hstoplit _ (by decide)), if_neg (hstoplit _ (by decide)),
        if_neg (hstoplit _ (by decide)), if_neg (hstoplit _ (by decide)),
        if_neg hn1', if_neg hn2', if_neg hn3', if_neg hcolon, if_neg (by simp [hdig]),
        if_neg hquote, if_neg (by intro hcon; rw [hcon] at hnq; exact Bool.noConfusion hnq)]
      show (if c.isDigit then some (Except.error (MalReaderError.IllegalSymbol (c :: rest)))
            else some (Except.ok (MalToken.Data (MalDataType.Symbol (c :: rest))))) =
        some (.ok (.Data (.Symbol (c :: rest))))
      rw [if_neg (by simpa using hd0)]

/-! ## Classifying the canonical lexemes of a well-formed value -/

theorem keywordShape_head {s : List Char} (h : keywordShape s = true) :
    ':' :: s.drop 1 = s := by
  cases s with
  | nil => exact absurd h (by simp [keywordShape])
  | cons c rest =>
    have h' : (if c = ':' then
        (if rest.head? = some ':' then false else true) && (c :: rest).all isBareChar
      else false) = true := h
    by_cases hc : c = ':'
    · subst hc; rfl
    · rw [if_neg hc] at h'
      exact Bool.noConfusion h'

theorem tokenize_cons {l : List Char} {ls : List (List Char)} {t : MalToken}
    {rest : List MalToken} (hl : from_str l = some (.ok t))
    (hls : tokenize ls = some (.ok rest)) :
    tokenize (l :: ls) = some (.ok (t :: rest)) := by
  unfold tokenize
  rw [hl, hls]

theorem tokenize_append {a b : List (List Char)} {ta tb : List MalToken}
    (ha : tokenize a = some (.ok ta)) (hb : tokenize b = some (.ok tb)) :
    tokenize (a ++ b) = some (.ok (ta ++ tb)) := by
  induction a generalizing ta with
  | nil =>
    have h0 : tokenize ([] : List (List Char)) = some (.ok []) := rfl
    rw [h0] at ha
    injection ha with ha'
    injection ha' with ha''
    rw [← ha'']
    simpa using hb
  | cons l ls ih =>
    unfold tokenize at ha
    cases hf : from_str l with
    | none => rw [hf] at ha; exact Option.noConfusion ha
    | some res =>
      rw [hf] at ha
      cases res with
      | error e => simp at ha
      | ok t =>
        cases hts : tokenize ls with
        | none => rw [hts] at ha; exact Option.noConfusion ha
        | some res2 =>
          rw [hts] at ha
          cases res2 with
          | error e => simp at ha
          | ok ts0 =>
            have ha2 : some (Except.ok (t :: ts0) :
                Except MalReaderError (List MalToken)) = some (.ok ta) := ha
            injection ha2 with ha3
            injection ha3 with ha4
            rw [← ha4]
            rw [List.cons_append]
            exact tokenize_cons hf (ih hts)

theorem wfListElems_mem {ts : List MalToken} (h : wfListElems ts = true) :
    ∀ t ∈ ts, t = .CloseBracket ∨ ∃ d, t = .Data d ∧ wfData d = true := by
  induction ts with
  | nil => intro t ht; cases ht
  | cons t0 ts ih =>
    have hsplit : (t0 = .CloseBracket ∨ ∃ d, t0 = .Data d ∧ wfData d = true) ∧
        wfListElems ts = true := by
      cases t0 with
      | CloseBracket => exact ⟨Or.inl rfl, h⟩
      | Data d =>
        have h' : (wfData d && wfListElems ts) = true := h
        rw [Bool.and_eq_true] at h'
        exact ⟨Or.inr ⟨d, rfl, h'.1⟩, h'.2⟩
      | OpenParen => exact Bool.noConfusion h
      | OpenBracket => exact Bool.noConfusion h
      | CloseParen => exact Bool.noConfusion h
    intro t ht
    rcases List.mem_cons.mp ht with rfl | ht'
    · exact hsplit.1
    · exact ih hsplit.2 t ht'

theorem wfVecElems_mem {ts : List MalToken} (h : wfVecElems ts = true) :
    ∀ t ∈ ts, t = .CloseParen ∨ ∃ d, t = .Data d ∧ wfData d = true := by
  induction ts with
  | nil => intro t ht; cases ht
  | cons t0 ts ih =>
    have hsplit : (t0 = .CloseParen ∨ ∃ d, t0 = .Data d ∧ wfData d = true) ∧
        wfVecElems ts = true := by
      cases t0 with
      | CloseParen => exact ⟨Or.inl rfl, h⟩
      | Data d =>
        have h' : (wfData d && wfVecElems ts) = true := h
        rw [Bool.and_eq_true] at h'
        exact ⟨Or.inr ⟨d, rfl, h'.1⟩, h'.2⟩
      | OpenParen => exact Bool.noConfusion h
      | OpenBracket => exact Bool.noConfusion h
      | CloseBracket => exact Bool.noConfusion h
    intro t ht
    rcases List.mem_cons.mp ht with rfl | ht'
    · exact hsplit.1
    · exact ih hsplit.2 t ht'

theorem tokenize_canonical : ∀ n : Nat,
    (∀ v : MalDataType, sizeOf v ≤ n → wfData v = true →
      tokenize (lexemesOfD v) = some (.ok (tokensOfD v))) ∧
    (∀ ts : List MalToken, sizeOf ts ≤ n →
      (∀ t ∈ ts, t = .CloseBracket ∨ t = .CloseParen ∨ ∃ d, t = .Data d ∧ wfData d = true) →
      tokenize (lexemesOfToks ts) = some (.ok (tokensOfToks ts))) := by
  intro n
  induction n with
  | zero =>
    constructor
    · intro v hs
      exact absurd hs (by cases v <;> simp)
    · intro ts hs
      exact absurd hs (by cases ts <;> simp)
  | succ n ih =>
    obtain ⟨ih1, ih2⟩ := ih
    constructor
    · intro v hs hwf
      cases v with
      | Nil => rfl
      | Boolean b => cases b <;> rfl
      | Int k =>
        obtain ⟨hne, hall, hval⟩ := natToDec_spec k
        have hle : listToNat (natToDec k) ≤ USIZE_MAX := by
          rw [hval]
          exact of_decide_eq_true hwf
        have hf := from_str_all_digits hne hall hle
        rw [hval] at hf
        exact tokenize_cons hf rfl
      | String s => exact tokenize_cons (from_str_string hwf) rfl
      | Keyword s =>
        have hgoal : tokenize [':' :: s.drop 1] = some (.ok [.Data (.Keyword s)]) := by
          rw [keywordShape_head hwf]
          exact tokenize_cons (from_str_keyword hwf) rfl
        exact hgoal
      | Symbol s => exact tokenize_cons (from_str_symbol hwf) rfl
      | List ts =>
        have helems := @wfListElems_mem ts hwf
        have h2 := ih2 ts (by simp at hs; omega)
          (fun t ht => (helems t ht).elim Or.inl (fun h => Or.inr (Or.inr h)))
        exact tokenize_cons rfl (tokenize_append h2 rfl)
      | Vector ts =>
        have helems := @wfVecElems_mem ts hwf
        have h2 := ih2 ts (by simp at hs; omega)
          (fun t ht => (helems t ht).elim (fun h => Or.inr (Or.inl h))
            (fun h => Or.inr (Or.inr h)))
        exact tokenize_cons rfl (tokenize_append h2 rfl)
    · intro ts hs hcond
      cases ts with
      | nil => rfl
      | cons t ts' =>
        have hts' := ih2 ts' (by simp at hs; omega)
          (fun u hu => hcond u (List.mem_cons_of_mem _ hu))
        rcases hcond t (List.mem_cons_self t ts') with rfl | rfl | ⟨d, rfl, hd⟩
        · exact tokenize_append (tokenize_cons rfl rfl) hts'
        · exact tokenize_append (tokenize_cons rfl rfl) hts'
        · exact tokenize_append (ih1 d (by simp at hs; omega) hd) hts'

/-! ## Lexing the rendering of a well-formed value -/

theorem sepOK_closer {cl : Char} (s : List Char) (hcl : cl = ')' ∨ cl = ']') :
    sepOK (cl :: s) := by
  rcases hcl with rfl | rfl
  · exact Or.inr (Or.inl rfl)
  · exact Or.inr (Or.inr rfl)

theorem sepOK_space (s : List Char) : sepOK (' ' :: s) := Or.inl rfl

theorem keywordShape_all {s : List Char} (h : keywordShape s = true) :
    s.all isBareChar = true := by
  cases s with
  | nil => exact absurd h (by simp [keywordShape])
  | cons c rest =>
    have h' : (if c = ':' then
        (if rest.head? = some ':' then false else true) && (c :: rest).all isBareChar
      else false) = true := h
    by_cases hc : c = ':'
    · rw [if_pos hc, Bool.and_eq_true] at h'
      exact h'.2
    · rw [if_neg hc] at h'
      exact Bool.noConfusion h'

theorem bareShape_parts {s : List Char} (h : bareShape s = true) :
    s ≠ [] ∧ (∀ c ∈ s, isBareChar c = true) ∧
    (∀ c, s.head? = some c → bareHeadOK c = true) := by
  cases s with
  | nil => exact absurd h (by simp [bareShape])
  | cons c rest =>
    have h' : (bareHeadOK c && (c :: rest).all isBareChar) = true := h
    rw [Bool.and_eq_true] at h'
    refine ⟨by simp, fun x hx => List.all_eq_true.mp h'.2 x hx, ?_⟩
    intro x hx
    injection hx with hx'
    subst hx'
    exact h'.1

theorem render_ne_nil {v : MalDataType} (h : wfData v = true) : dataToString v ≠ [] := by
  cases v with
  | Nil => simp [dataToString]
  | Boolean b => cases b <;> simp [dataToString]
  | Int n => exact (natToDec_spec n).1
  | String s =>
    cases s with
    | nil => exact absurd h (by simp [wfData, strShape])
    | cons c body => simp [dataToString]
  | Keyword s => simp [dataToString]
  | Symbol s =>
    cases s with
    | nil => exact absurd h (by decide)
    | cons c rest => simp [dataToString]
  | Vector ts => simp [dataToString]
  | List ts => simp [dataToString]

theorem renderToks_all_ne {ts : List MalToken}
    (hcond : ∀ t ∈ ts, t = .CloseBracket ∨ t = .CloseParen ∨
      ∃ d, t = .Data d ∧ wfData d = true) :
    (renderToks ts).filter (fun x => !x.isEmpty) = renderToks ts := by
  induction ts with
  | nil => rfl
  | cons t ts ih =>
    have hne : tokenToString t ≠ [] := by
      rcases hcond t (List.mem_cons_self t ts) with rfl | rfl | ⟨d, rfl, hd⟩
      · simp [tokenToString]
      · simp [tokenToString]
      · exact render_ne_nil hd
    have hemp : (tokenToString t).isEmpty = false := by
      cases hts : tokenToString t with
      | nil => exact absurd hts hne
      | cons a l => rfl
    have step : renderToks (t :: ts) = tokenToString t :: renderToks ts := rfl
    rw [step, List.filter_cons_of_pos (by rw [hemp]; rfl),
      ih (fun u hu => hcond u (List.mem_cons_of_mem _ hu))]

theorem lexer_render : ∀ n : Nat,
    (∀ v : MalDataType, sizeOf v ≤ n → wfData v = true → ∀ s, sepOK s →
      lexer (dataToString v ++ s) = lexemesOfD v ++ lexer s) ∧
    (∀ ts : List MalToken, sizeOf ts ≤ n →
      (∀ t ∈ ts, t = .CloseBracket ∨ t = .CloseParen ∨ ∃ d, t = .Data d ∧ wfData d = true) →
      ∀ cl s, (cl = ')' ∨ cl = ']') →
      lexer (joinSpace (renderToks ts) ++ cl :: s) =
        lexemesOfToks ts ++ lexer (cl :: s)) := by
  intro n
  induction n with
  | zero =>
    constructor
    · intro v hs
      exact absurd hs (by cases v <;> simp)
    · intro ts hs
      exact absurd hs (by cases ts <;> simp)
  | succ n ih =>
    obtain ⟨ih1, ih2⟩ := ih
    constructor
    · intro v hs hwf s hsep
      cases v with
      | Nil =>
        exact lexer_bare (by decide) (by decide)
          (fun c hc => by injection hc with hc'; subst hc'; decide) hsep
      | Boolean b =>
        cases b
        · exact lexer_bare (by decide) (by decide)
            (fun c hc => by injection hc with hc'; subst hc'; decide) hsep
        · exact lexer_bare (by decide) (by decide)
            (fun c hc => by injection hc with hc'; subst hc'; decide) hsep
      | Int k =>
        obtain ⟨hne, hall, hval⟩ := natToDec_spec k
        rw [show dataToString (.Int k) = natToDec k from rfl,
          show lexemesOfD (.Int k) = [natToDec k] from rfl]
        refine lexer_bare hne ?_ ?_ hsep
        · intro c hc
          rw [isBareChar_iff]
          exact isDigit_not_stop (List.all_eq_true.mp hall c hc)
        · intro c hc
          cases hnc : natToDec k with
          | nil => rw [hnc] at hc; exact Option.noConfusion hc
          | cons a l =>
            rw [hnc] at hc
            injection hc with hc'
            have ha : a.isDigit = true :=
              List.all_eq_true.mp (hnc ▸ hall) a (List.mem_cons_self a l)
            rw [← hc']
            exact isDigit_not_punct ha
      | String str =>
        cases str with
        | nil => exact absurd hwf (by simp [wfData, strShape])
        | cons c body =>
          have h' : (if c = '"' then strBody body else false) = true := hwf
          by_cases hc : c = '"'
          · rw [if_pos hc] at h'
            subst hc
            rw [show dataToString (.String ('"' :: body)) = '"' :: body from rfl,
              List.cons_append]
            exact lexer_cons_quote s h'
          · rw [if_neg hc] at h'
            exact Bool.noConfusion h'
      | Keyword str =>
        have hall := keywordShape_all hwf
        have hhead := keywordShape_head hwf
        have hstep : dataToString (.Keyword str) = str := by
          rw [show dataToString (.Keyword str) = ':' :: str.drop 1 from rfl, hhead]
        rw [hstep, show lexemesOfD (.Keyword str) = [':' :: str.drop 1] from rfl, hhead]
        refine lexer_bare ?_ (fun c hc => List.all_eq_true.mp hall c hc) ?_ hsep
        · intro h'
          rw [h'] at hhead
          exact List.noConfusion hhead
        · intro c hc
          rw [← hhead] at hc
          injection hc with hc'
          subst hc'
          decide
      | Symbol str =>
        have hs' : symShape str = true := hwf
        unfold symShape at hs'
        rw [Bool.or_eq_true, Bool.or_eq_true] at hs'
        rcases hs' with (h1 | h2) | h3
        · have hseq : str = ['~', '@'] := by simpa using h1
          subst hseq
          exact lexer_tilde_at s
        · cases str with
          | nil => exact Bool.noConfusion h2
          | cons c rest =>
            cases rest with
            | nil =>
              have h2' : punct7.contains c = true := h2
              have hmem := contains_true_mem h2'
              have hp : isPunctC c = true :=
                (by decide : ∀ x ∈ punct7, isPunctC x = true) c hmem
              have hna : ¬(c = '~' ∧ s.head? = some '@') := by
                rintro ⟨hc, hh⟩
                exact (sepOK_head hsep '@' hh).2 rfl
              exact lexer_cons_punct hp hna
            | cons c2 r2 => exact Bool.noConfusion h2
        · rw [Bool.and_eq_true, Bool.and_eq_true, Bool.and_eq_true] at h3
          obtain ⟨⟨⟨hbs, -⟩, -⟩, -⟩ := h3
          obtain ⟨hne, hall, hhd⟩ := bareShape_parts hbs
          refine lexer_bare hne hall ?_ hsep
          intro c hc
          have hcmem : c ∈ str := by
            cases str with
            | nil => exact Option.noConfusion hc
            | cons c0 r0 =>
              injection hc with hc'
              subst hc'
              exact List.mem_cons_self _ _
          exact bareHead_not_punct (hall c hcmem) (hhd c hc)
      | List ts =>
        have hwf' : wfListElems ts = true := hwf
        have hcond := wfListElems_mem hwf'
        have hcond' : ∀ t ∈ ts, t = MalToken.CloseBracket ∨ t = MalToken.CloseParen ∨
            ∃ d, t = MalToken.Data d ∧ wfData d = true :=
          fun t ht => (hcond t ht).elim Or.inl (fun h => Or.inr (Or.inr h))
        have hrender : dataToString (.List ts) = '(' :: (joinSpace (renderToks ts) ++ [')']) := by
          show '(' :: (joinSpace ((renderToks ts).filter (fun x => !x.isEmpty)) ++ [')']) = _
          rw [renderToks_all_ne hcond']
        rw [hrender, List.cons_append, List.append_assoc, List.singleton_append]
        rw [lexer_cons_punct (by decide) (fun hand => absurd hand.1 (by decide))]
        rw [ih2 ts (by simp at hs; omega) hcond' ')' s (Or.inl rfl)]
        rw [lexer_cons_punct (by decide) (fun hand => absurd hand.1 (by decide))]
        show _ = ("(".data :: (lexemesOfToks ts ++ [")".data])) ++ lexer s
        rw [List.cons_append, List.append_assoc]
        rfl
      | Vector ts =>
        have hwf' : wfVecElems ts = true := hwf
        have hcond := wfVecElems_mem hwf'
        have hcond' : ∀ t ∈ ts, t = MalToken.CloseBracket ∨ t = MalToken.CloseParen ∨
            ∃ d, t = MalToken.Data d ∧ wfData d = true :=
          fun t ht => (hcond t ht).elim (fun h => Or.inr (Or.inl h))
            (fun h => Or.inr (Or.inr h))
        have hrender : dataToString (.Vector ts) = '[' :: (joinSpace (renderToks ts) ++ [']']) := by
          show '[' :: (joinSpace ((renderToks ts).filter (fun x => !x.isEmpty)) ++ [']']) = _
          rw [renderToks_all_ne hcond']
        rw [hrender, List.cons_append, List.append_assoc, List.singleton_append]
        rw [lexer_cons_punct (by decide) (fun hand => absurd hand.1 (by decide))]
        rw [ih2 ts (by simp at hs; omega) hcond' ']' s (Or.inr rfl)]
        rw [lexer_cons_punct (by decide) (fun hand => absurd hand.1 (by decide))]
        show _ = ("[".data :: (lexemesOfToks ts ++ ["]".data])) ++ lexer s
        rw [List.cons_append, List.append_assoc]
        rfl
    · intro ts hs hcond cl s hcl
      cases ts with
      | nil => rfl
      | cons t ts' =>
        cases ts' with
        | nil =>
          rcases hcond t (List.mem_cons_self t []) with rfl | rfl | ⟨d, rfl, hd⟩
          · have := lexer_cons_punct (c := ']') (s := cl :: s) (by decide)
              (fun hand => absurd hand.1 (by decide))
            simpa using this
          · have := lexer_cons_punct (c := ')') (s := cl :: s) (by decide)
              (fun hand => absurd hand.1 (by decide))
            simpa using this
          · have hsz : sizeOf d ≤ n := by
              have h1 : sizeOf ([MalToken.Data d] : List MalToken) =
                  1 + (1 + sizeOf d) + 1 := by simp
              omega
            have := ih1 d hsz hd (cl :: s) (sepOK_closer s hcl)
            rw [show joinSpace (renderToks [MalToken.Data d]) = dataToString d from rfl,
              show lexemesOfToks [MalToken.Data d] = lexemesOfD d ++ [] from rfl,
              List.append_nil]
            exact this
        | cons t2 ts2 =>
          have hj : joinSpace (renderToks (t :: t2 :: ts2)) =
              tokenToString t ++ ' ' :: joinSpace (renderToks (t2 :: ts2)) := rfl
          have hrest := ih2 (t2 :: ts2) (by simp at hs ⊢; omega)
            (fun u hu => hcond u (List.mem_cons_of_mem _ hu)) cl s hcl
          rw [hj, List.append_assoc, List.cons_append]
          rcases hcond t (List.mem_cons_self t (t2 :: ts2)) with rfl | rfl | ⟨d, rfl, hd⟩
          · rw [show tokenToString MalToken.CloseBracket ++
                ' ' :: (joinSpace (renderToks (t2 :: ts2)) ++ cl :: s) =
                ']' :: ' ' :: (joinSpace (renderToks (t2 :: ts2)) ++ cl :: s) from rfl]
            rw [lexer_cons_punct (by decide) (fun hand => absurd hand.1 (by decide)),
              lexer_cons_skip (by decide), hrest]
            rfl
          · rw [show tokenToString MalToken.CloseParen ++
                ' ' :: (joinSpace (renderToks (t2 :: ts2)) ++ cl :: s) =
                ')' :: ' ' :: (joinSpace (renderToks (t2 :: ts2)) ++ cl :: s) from rfl]
            rw [lexer_cons_punct (by decide) (fun hand => absurd hand.1 (by decide)),
              lexer_cons_skip (by decide), hrest]
            rfl
          · rw [show tokenToString (MalToken.Data d) = dataToString d from rfl]
            rw [ih1 d (by simp at hs; omega) hd
              (' ' :: (joinSpace (renderToks (t2 :: ts2)) ++ cl :: s)) (sepOK_space _)]
            rw [lexer_cons_skip (by decide), hrest]
            rw [show lexemesOfToks (MalToken.Data d :: t2 :: ts2) =
              lexemesOfD d ++ lexemesOfToks (t2 :: ts2) from rfl, List.append_assoc]

/-! ## Reading the canonical token sequence of a well-formed value -/

theorem peek_at_append (pre : List MalToken) (t : MalToken) (rest : List MalToken) :
    peek (pre ++ t :: rest) pre.length = .ok t := by
  unfold peek
  rw [List.get?_append_right (Nat.le_refl _), Nat.sub_self]
  rfl

theorem read_form_at_cons {pre rest : List MalToken} {t0 : MalToken}
    (h : t0 = .CloseParen ∨ t0 = .CloseBracket ∨ ∃ d, t0 = .Data d) :
    read_form (pre ++ t0 :: rest) pre.length = .ok (t0, pre.length) := by
  rw [read_form_eq, peek_at_append]
  rcases h with rfl | rfl | ⟨d, rfl⟩ <;> rfl

theorem read_list_step_closer {ts : List MalToken} {pos p : Nat} {acc : List MalToken}
    (h : read_form ts pos = .ok (.CloseParen, p)) :
    read_list ts pos acc = .ok (.Data (.List acc), p) := by
  rw [read_list_eq, h]

theorem read_list_step_push {ts : List MalToken} {pos p : Nat} {acc : List MalToken}
    {t : MalToken} (h : read_form ts pos = .ok (t, p)) (hne : t ≠ .CloseParen) :
    read_list ts pos acc = read_list ts (p + 1) (acc ++ [t]) := by
  rw [read_list_eq, h]
  cases t with
  | CloseParen => exact absurd rfl hne
  | OpenParen => rfl
  | OpenBracket => rfl
  | CloseBracket => rfl
  | Data d => rfl

theorem read_vector_step_closer {ts : List MalToken} {pos p : Nat} {acc : List MalToken}
    (h : read_form ts pos = .ok (.CloseBracket, p)) :
    read_vector ts pos acc = .ok (.Data (.Vector acc), p) := by
  rw [read_vector_eq, h]

theorem read_vector_step_push {ts : List MalToken} {pos p : Nat} {acc : List MalToken}
    {t : MalToken} (h : read_form ts pos = .ok (t, p)) (hne : t ≠ .CloseBracket) :
    read_vector ts pos acc = read_vector ts (p + 1) (acc ++ [t]) := by
  rw [read_vector_eq, h]
  cases t with
  | CloseBracket => exact absurd rfl hne
  | OpenParen => rfl
  | OpenBracket => rfl
  | CloseParen => rfl
  | Data d => rfl

theorem tokensOfD_ne_nil (d : MalDataType) : tokensOfD d ≠ [] := by
  cases d <;> simp [tokensOfD]

theorem read_form_open_paren {pre Y : List MalToken} :
    read_form (pre ++ .OpenParen :: Y) pre.length =
      read_list (pre ++ .OpenParen :: Y) (pre.length + 1) [] := by
  rw [read_form_eq, peek_at_append]

theorem read_form_open_bracket {pre Y : List MalToken} :
    read_form (pre ++ .OpenBracket :: Y) pre.length =
      read_vector (pre ++ .OpenBracket :: Y) (pre.length + 1) [] := by
  rw [read_form_eq, peek_at_append]

theorem parse_canonical : ∀ n : Nat,
    (∀ v : MalDataType, sizeOf v ≤ n → wfData v = true → ∀ pre rest : List MalToken,
      read_form (pre ++ tokensOfD v ++ rest) pre.length =
        .ok (.Data v, pre.length + (tokensOfD v).length - 1)) ∧
    (∀ ts : List MalToken, sizeOf ts ≤ n → wfListElems ts = true →
      ∀ pre rest acc : List MalToken,
      read_list (pre ++ tokensOfToks ts ++ (.CloseParen :: rest)) pre.length acc =
        .ok (.Data (.List (acc ++ ts)), pre.length + (tokensOfToks ts).length)) ∧
    (∀ ts : List MalToken, sizeOf ts ≤ n → wfVecElems ts = true →
      ∀ pre rest acc : List MalToken,
      read_vector (pre ++ tokensOfToks ts ++ (.CloseBracket :: rest)) pre.length acc =
        .ok (.Data (.Vector (acc ++ ts)), pre.length + (tokensOfToks ts).length)) := by
  intro n
  induction n with
  | zero =>
    refine ⟨?_, ?_, ?_⟩
    · intro v hs
      exact absurd hs (by cases v <;> simp)
    · intro ts hs
      exact absurd hs (by cases ts <;> simp)
    · intro ts hs
      exact absurd hs (by cases ts <;> simp)
  | succ n ih =>
    obtain ⟨ih1, ih2, ih3⟩ := ih
    refine ⟨?_, ?_, ?_⟩
    · intro v hs hwf pre rest
      cases v with
      | Nil =>
        have hL : pre ++ tokensOfD (.Nil ) ++ rest =
            pre ++ .Data (.Nil ) :: rest := by
          rw [show tokensOfD (.Nil ) = [.Data (.Nil )] from rfl]
          simp
        rw [hL, read_form_at_cons (Or.inr (Or.inr ⟨_, rfl⟩)),
          show (tokensOfD (.Nil )).length = 1 from rfl, Nat.add_sub_cancel]
      | Boolean b =>
        have hL : pre ++ tokensOfD (.Boolean b ) ++ rest =
            pre ++ .Data (.Boolean b ) :: rest := by
          rw [show tokensOfD (.Boolean b ) = [.Data (.Boolean b )] from rfl]
          simp
        rw [hL, read_form_at_cons (Or.inr (Or.inr ⟨_, rfl⟩)),
          show (tokensOfD (.Boolean b )).length = 1 from rfl, Nat.add_sub_cancel]
      | Int k =>
        have hL : pre ++ tokensOfD (.Int k ) ++ rest =
            pre ++ .Data (.Int k ) :: rest := by
          rw [show tokensOfD (.Int k ) = [.Data (.Int k )] from rfl]
          simp
        rw [hL, read_form_at_cons (Or.inr (Or.inr ⟨_, rfl⟩)),
          show (tokensOfD (.Int k )).length = 1 from rfl, Nat.add_sub_cancel]
      | String str =>
        have hL : pre ++ tokensOfD (.String str ) ++ rest =
            pre ++ .Data (.String str ) :: rest := by
          rw [show tokensOfD (.String str ) = [.Data (.String str )] from rfl]
          simp
        rw [hL, read_form_at_cons (Or.inr (Or.inr ⟨_, rfl⟩)),
          show (tokensOfD (.String str )).length = 1 from rfl, Nat.add_sub_cancel]
      | Keyword str =>
        have hL : pre ++ tokensOfD (.Keyword str ) ++ rest =
            pre ++ .Data (.Keyword str ) :: rest := by
          rw [show tokensOfD (.Keyword str ) = [.Data (.Keyword str )] from rfl]
          simp
        rw [hL, read_form_at_cons (Or.inr (Or.inr ⟨_, rfl⟩)),
          show (tokensOfD (.Keyword str )).length = 1 from rfl, Nat.add_sub_cancel]
      | Symbol str =>
        have hL : pre ++ tokensOfD (.Symbol str ) ++ rest =
            pre ++ .Data (.Symbol str ) :: rest := by
          rw [show tokensOfD (.Symbol str ) = [.Data (.Symbol str )] from rfl]
          simp
        rw [hL, read_form_at_cons (Or.inr (Or.inr ⟨_, rfl⟩)),
          show (tokensOfD (.Symbol str )).length = 1 from rfl, Nat.add_sub_cancel]
      | List ts =>
        have hwf' : wfListElems ts = true := hwf
        have hL : pre ++ tokensOfD (.List ts) ++ rest =
            pre ++ .OpenParen :: (tokensOfToks ts ++ .CloseParen :: rest) := by
          rw [show tokensOfD (.List ts) =
            .OpenParen :: (tokensOfToks ts ++ [.CloseParen]) from rfl]
          simp
        rw [hL, read_form_open_paren]
        have h2 := ih2 ts (by simp at hs; omega) hwf' (pre ++ [.OpenParen]) rest []
        simp only [List.append_assoc, List.cons_append, List.singleton_append,
          List.nil_append, List.append_nil] at h2
        rw [show pre.length + 1 = (pre ++ [MalToken.OpenParen]).length from by simp, h2]
        have hp : (pre ++ [MalToken.OpenParen]).length + (tokensOfToks ts).length =
            pre.length + (tokensOfD (.List ts)).length - 1 := by
          rw [show tokensOfD (.List ts) =
            .OpenParen :: (tokensOfToks ts ++ [.CloseParen]) from rfl]
          simp
          omega
        rw [hp]
      | Vector ts =>
        have hwf' : wfVecElems ts = true := hwf
        have hL : pre ++ tokensOfD (.Vector ts) ++ rest =
            pre ++ .OpenBracket :: (tokensOfToks ts ++ .CloseBracket :: rest) := by
          rw [show tokensOfD (.Vector ts) =
            .OpenBracket :: (tokensOfToks ts ++ [.CloseBracket]) from rfl]
          simp
        rw [hL, read_form_open_bracket]
        have h2 := ih3 ts (by simp at hs; omega) hwf' (pre ++ [.OpenBracket]) rest []
        simp only [List.append_assoc, List.cons_append, List.singleton_append,
          List.nil_append, List.append_nil] at h2
        rw [show pre.length + 1 = (pre ++ [MalToken.OpenBracket]).length from by simp, h2]
        have hp : (pre ++ [MalToken.OpenBracket]).length + (tokensOfToks ts).length =
            pre.length + (tokensOfD (.Vector ts)).length - 1 := by
          rw [show tokensOfD (.Vector ts) =
            .OpenBracket :: (tokensOfToks ts ++ [.CloseBracket]) from rfl]
          simp
          omega
        rw [hp]
    · intro ts hs hwf pre rest acc
      cases ts with
      | nil =>
        have hL : pre ++ tokensOfToks [] ++ (MalToken.CloseParen :: rest) =
            pre ++ MalToken.CloseParen :: rest := by
          rw [show tokensOfToks [] = [] from rfl]
          simp
        rw [hL, read_list_step_closer (read_form_at_cons (Or.inl rfl)), List.append_nil]
        rfl
      | cons t ts' =>
        have hsplit : (t = MalToken.CloseBracket ∨
            ∃ d, t = MalToken.Data d ∧ wfData d = true) ∧ wfListElems ts' = true := by
          cases t with
          | CloseBracket => exact ⟨Or.inl rfl, hwf⟩
          | Data d =>
            have h' : (wfData d && wfListElems ts') = true := hwf
            rw [Bool.and_eq_true] at h'
            exact ⟨Or.inr ⟨d, rfl, h'.1⟩, h'.2⟩
          | OpenParen => exact Bool.noConfusion hwf
          | OpenBracket => exact Bool.noConfusion hwf
          | CloseParen => exact Bool.noConfusion hwf
        rcases hsplit with ⟨rfl | ⟨d, rfl, hd⟩, hwf'⟩
        · have hL : pre ++ tokensOfToks (MalToken.CloseBracket :: ts') ++
              (MalToken.CloseParen :: rest) =
              pre ++ MalToken.CloseBracket :: (tokensOfToks ts' ++ MalToken.CloseParen :: rest) := by
            rw [show tokensOfToks (MalToken.CloseBracket :: ts') =
              MalToken.CloseBracket :: tokensOfToks ts' from rfl]
            simp
          rw [hL, read_list_step_push (read_form_at_cons (Or.inr (Or.inl rfl)))
            (fun h' => MalToken.noConfusion h')]
          have h2 := ih2 ts' (by simp at hs ⊢; omega) hwf'
            (pre ++ [.CloseBracket]) rest (acc ++ [.CloseBracket])
          simp only [List.append_assoc, List.cons_append, List.singleton_append,
            List.nil_append, List.append_nil] at h2
          rw [show pre.length + 1 = (pre ++ [MalToken.CloseBracket]).length from by simp, h2]
          have hp : (pre ++ [MalToken.CloseBracket]).length + (tokensOfToks ts').length =
              pre.length + (tokensOfToks (MalToken.CloseBracket :: ts')).length := by
            rw [show tokensOfToks (MalToken.CloseBracket :: ts') =
              MalToken.CloseBracket :: tokensOfToks ts' from rfl]
            simp
            omega
          rw [hp]
        · have hL : pre ++ tokensOfToks (MalToken.Data d :: ts') ++
              (MalToken.CloseParen :: rest) =
              pre ++ tokensOfD d ++ (tokensOfToks ts' ++ MalToken.CloseParen :: rest) := by
            rw [show tokensOfToks (MalToken.Data d :: ts') =
              tokensOfD d ++ tokensOfToks ts' from rfl]
            simp
          rw [hL]
          have hone : 1 ≤ (tokensOfD d).length := by
            cases hh : tokensOfD d with
            | nil => exact absurd hh (tokensOfD_ne_nil d)
            | cons x xs => simp
          have hform := ih1 d (by simp at hs ⊢; omega) hd pre
            (tokensOfToks ts' ++ MalToken.CloseParen :: rest)
          rw [read_list_step_push hform (fun h' => MalToken.noConfusion h')]
          have hpos : pre.length + (tokensOfD d).length - 1 + 1 =
              (pre ++ tokensOfD d).length := by
            simp
            omega
          rw [hpos, List.append_assoc]
          have h2 := ih2 ts' (by simp at hs ⊢; omega) hwf'
            (pre ++ tokensOfD d) rest (acc ++ [.Data d])
          simp only [List.append_assoc, List.cons_append, List.singleton_append,
            List.nil_append, List.append_nil] at h2
          rw [h2]
          have hp : (pre ++ tokensOfD d).length + (tokensOfToks ts').length =
              pre.length + (tokensOfToks (MalToken.Data d :: ts')).length := by
            rw [show tokensOfToks (MalToken.Data d :: ts') =
              tokensOfD d ++ tokensOfToks ts' from rfl]
            simp
            omega
          rw [hp]
    · intro ts hs hwf pre rest acc
      cases ts with
      | nil =>
        have hL : pre ++ tokensOfToks [] ++ (MalToken.CloseBracket :: rest) =
            pre ++ MalToken.CloseBracket :: rest := by
          rw [show tokensOfToks [] = [] from rfl]
          simp
        rw [hL, read_vector_step_closer (read_form_at_cons (Or.inr (Or.inl rfl))),
          List.append_nil]
        rfl
      | cons t ts' =>
        have hsplit : (t = MalToken.CloseParen ∨
            ∃ d, t = MalToken.Data d ∧ wfData d = true) ∧ wfVecElems ts' = true := by
          cases t with
          | CloseParen => exact ⟨Or.inl rfl, hwf⟩
          | Data d =>
            have h' : (wfData d && wfVecElems ts') = true := hwf
            rw [Bool.and_eq_true] at h'
            exact ⟨Or.inr ⟨d, rfl, h'.1⟩, h'.2⟩
          | OpenParen => exact Bool.noConfusion hwf
          | OpenBracket => exact Bool.noConfusion hwf
          | CloseBracket => exact Bool.noConfusion hwf
        rcases hsplit with ⟨rfl | ⟨d, rfl, hd⟩, hwf'⟩
        · have hL : pre ++ tokensOfToks (MalToken.CloseParen :: ts') ++
              (MalToken.CloseBracket :: rest) =
              pre ++ MalToken.CloseParen :: (tokensOfToks ts' ++ MalToken.CloseBracket :: rest) := by
            rw [show tokensOfToks (MalToken.CloseParen :: ts') =
              MalToken.CloseParen :: tokensOfToks ts' from rfl]
            simp
          rw [hL, read_vector_step_push (read_form_at_cons (Or.inl rfl))
            (fun h' => MalToken.noConfusion h')]
          have h2 := ih3 ts' (by simp at hs ⊢; omega) hwf'
            (pre ++ [.CloseParen]) rest (acc ++ [.CloseParen])
          simp only [List.append_assoc, List.cons_append, List.singleton_append,
            List.nil_append, List.append_nil] at h2
          rw [show pre.length + 1 = (pre ++ [MalToken.CloseParen]).length from by simp, h2]
          have hp : (pre ++ [MalToken.CloseParen]).length + (tokensOfToks ts').length =
              pre.length + (tokensOfToks (MalToken.CloseParen :: ts')).length := by
            rw [show tokensOfToks (MalToken.CloseParen :: ts') =
              MalToken.CloseParen :: tokensOfToks ts' from rfl]
            simp
            omega
          rw [hp]
        · have hL : pre ++ tokensOfToks (MalToken.Data d :: ts') ++
              (MalToken.CloseBracket :: rest) =
              pre ++ tokensOfD d ++ (tokensOfToks ts' ++ MalToken.CloseBracket :: rest) := by
            rw [show tokensOfToks (MalToken.Data d :: ts') =
              tokensOfD d ++ tokensOfToks ts' from rfl]
            simp
          rw [hL]
          have hone : 1 ≤ (tokensOfD d).length := by
            cases hh : tokensOfD d with
            | nil => exact absurd hh (tokensOfD_ne_nil d)
            | cons x xs => simp
          have hform := ih1 d (by simp at hs ⊢; omega) hd pre
            (tokensOfToks ts' ++ MalToken.CloseBracket :: rest)
          rw [read_vector_step_push hform (fun h' => MalToken.noConfusion h')]
          have hpos : pre.length + (tokensOfD d).length - 1 + 1 =
              (pre ++ tokensOfD d).length := by
            simp
            omega
          rw [hpos, List.append_assoc]
          have h2 := ih3 ts' (by simp at hs ⊢; omega) hwf'
            (pre ++ tokensOfD d) rest (acc ++ [.Data d])
          simp only [List.append_assoc, List.cons_append, List.singleton_append,
            List.nil_append, List.append_nil] at h2
          rw [h2]
          have hp : (pre ++ tokensOfD d).length + (tokensOfToks ts').length =
              pre.length + (tokensOfToks (MalToken.Data d :: ts')).length := by
            rw [show tokensOfToks (MalToken.Data d :: ts') =
              tokensOfD d ++ tokensOfToks ts' from rfl]
            simp
            omega
          rw [hp]

/-- Round trip on well-formed values: rendering and re-reading is the
identity. -/
theorem read_str_render : ∀ v : MalDataType, wfData v = true → ∀ env : MalEnvironment,
    read_str (render v) env = some (.ok v) := by
  intro v hwf env
  have hsep : sepOK ([] : List Char) := trivial
  have hlex := (lexer_render (sizeOf v)).1 v (Nat.le_refl _) hwf [] hsep
  rw [List.append_nil, lexer_nil, List.append_nil] at hlex
  have htok := (tokenize_canonical (sizeOf v)).1 v (Nat.le_refl _) hwf
  have hparse := (parse_canonical (sizeOf v)).1 v (Nat.le_refl _) hwf [] []
  simp only [List.nil_append, List.append_nil, List.length_nil] at hparse
  have hpt : parseTokens (tokensOfD v) = Except.ok v := by
    unfold parseTokens
    rw [hparse]
  unfold read_str
  rw [show (render v).data = dataToString v from rfl, hlex, htok]
  show some (parseTokens (tokensOfD v)) = some (Except.ok v)
  rw [hpt]

/-- Claim C1, counterexample: the parse-render-parse round trip fails on
the code.  The input `"(;x\n)"` parses successfully to the list holding the
comment-shaped symbol `;x`; its rendering is `"(;x)"`, in which the
re-scanned comment lexeme swallows the closing parenthesis, so re-reading
the rendering fails with `UnterminatedList` instead of returning the same
value. -/
theorem C1_counterexample :
    read_str "(;x\n)" MalEnvironment.new =
      some (.ok (.List [.Data (.Symbol ";x".data)])) ∧
    (render (.List [.Data (.Symbol ";x".data)])).data = "(;x)".data ∧
    read_str (render (.List [.Data (.Symbol ";x".data)])) MalEnvironment.new =
      some (.error .UnterminatedList) :=
  ⟨rfl, rfl, rfl⟩

/-- Claim C1 (amended): the round trip `read_str (render v) = v` holds for
every well-formed value `v` — integers within `usize`, strings whose lexeme
re-scans to its own extent, symbols and keywords shaped like a single
scanner lexeme, and containers holding `Data` elements or the opposite
closer.  The claim as stated fails because a successful parse can return a
value outside this class (for example a comment-shaped symbol), whose
rendering no longer re-parses to it. -/
theorem C1_roundtrip_amended : ∀ v : MalDataType, wfData v = true →
    ∀ env : MalEnvironment, read_str (render v) env = some (.ok v) :=
  read_str_render

theorem C1_roundtrip_amended_witness :
    wfData (.List [.Data (.Symbol "+".data), .Data (.Int 12), .CloseBracket]) = true ∧
    read_str (render (.List [.Data (.Symbol "+".data), .Data (.Int 12), .CloseBracket]))
      MalEnvironment.new =
      some (.ok (.List [.Data (.Symbol "+".data), .Data (.Int 12), .CloseBracket])) :=
  ⟨rfl, C1_roundtrip_amended
    (.List [.Data (.Symbol "+".data), .Data (.Int 12), .CloseBracket]) rfl
    MalEnvironment.new⟩
